import Mathlib

/-!
Shallow embedding of the ECG estimation core of this repository
(`src/modules/ECGestimator.py`, `src/modules/QRSdetector.py`,
`src/modules/StochasticProcess.py`), together with proofs checking the
specification's claims against it.

Real-valued samples are modelled as rationals; the numpy/scipy primitives the
code calls (`np.mean`, `np.argmax`, `np.linalg.inv`, `scipy.signal.correlate`,
`scipy.signal.find_peaks`) are embedded by their documented integer/array
semantics, exactly at the call shapes the repository uses.
-/

/-- Python-style exceptions raised by the embedded code paths. -/
inductive PyError where
  | valueError : PyError
  | indexError : PyError
  | zeroDivisionError : PyError
  | linAlgError : PyError
  deriving DecidableEq

/-- Python `int(x)` applied to a real number: truncation toward zero. -/
def pyInt (q : ℚ) : ℤ := if 0 ≤ q then ⌊q⌋ else ⌈q⌉

/-- Clamp one endpoint of a Python slice `xs[a:b]` to a position in `0..n`
(negative endpoints count from the end, as in Python). -/
def pyIdx (n : ℕ) (i : ℤ) : ℕ := if i < 0 then (i + n).toNat else min i.toNat n

/-- Python list slicing `xs[a:b]` with integer endpoints. -/
def pySlice (xs : List ℚ) (a b : ℤ) : List ℚ :=
  (xs.take (pyIdx xs.length b)).drop (pyIdx xs.length a)

/-- Dot product of two sample vectors (`np.dot` on 1-D arrays of equal length). -/
def dotQ (xs ys : List ℚ) : ℚ := (List.zipWith (· * ·) xs ys).sum

/-- Squared L2 norm of a sample vector, the exact value of `np.linalg.norm(v)**2`. -/
def normSq (xs : List ℚ) : ℚ := dotQ xs xs

/-- Vector of `n` zeros (`np.zeros(n)`). -/
def zerosQ (n : ℕ) : List ℚ := List.replicate n 0

/-- Sample-wise mean of a list of equal-length windows (`np.mean(ws, axis=0)`).
On an empty list `np.mean` raises nothing: it emits a RuntimeWarning and yields
NaN; that NaN outcome is modelled as `none`. -/
def npMeanAxis0 (ws : List (List ℚ)) : Option (List ℚ) :=
  match ws with
  | [] => none
  | w :: _ => some ((List.range w.length).map fun j =>
      (ws.map fun v => v.getD j 0).sum / (ws.length : ℚ))

/-- Auxiliary scan for `np.argmax`: `l` is the unscanned suffix starting at
absolute position `i`; `bi` and `bv` are the position and value of the first
occurrence of the running maximum. -/
def npArgmaxAux : List ℚ → ℕ → ℕ → ℚ → ℕ
  | [], _, bi, _ => bi
  | v :: l, i, bi, bv =>
    if bv < v then npArgmaxAux l (i + 1) i v else npArgmaxAux l (i + 1) bi bv

/-- Position of the first maximal element of a nonempty array (`np.argmax`). -/
def npArgmax (xs : List ℚ) : ℕ := npArgmaxAux xs.tail 1 0 (xs.headD 0)

/-- Maximum entry of a nonempty array (`np.max`). -/
def npMax (xs : List ℚ) : ℚ := xs.foldl max (xs.headD 0)

/-- Test for the error case of an `Except` result (a raised Python exception). -/
def isErr {α : Type} : Except PyError α → Bool
  | .error _ => true
  | .ok _ => false

/-- Effectful map over a list in the `Except` monad; models a Python `for`
loop that builds up a list and may raise. -/
def mapME {α β : Type} (f : α → Except PyError β) : List α → Except PyError (List β)
  | [] => .ok []
  | a :: l =>
    match f a with
    | .error e => .error e
    | .ok b =>
      match mapME f l with
      | .error e => .error e
      | .ok bs => .ok (b :: bs)

/-- Embedding of `StochasticProcess` (src/modules/StochasticProcess.py),
restricted to the fields read by the detection/estimation core; the plotting
and resampling members are omitted since no claim touches them. -/
structure StochasticProcess where
  num_realizations : ℕ
  realizations : List (List ℚ)
  labels : List String
  sr : ℚ

/-- Embedding of `StochasticProcess.get_realization_by_index`: an index at or
past `num_realizations` raises `ValueError`; an index below `num_realizations`
but outside the actual realization list is a Python `IndexError`. -/
def StochasticProcess.get_realization_by_index (sp : StochasticProcess) (index : ℕ) :
    Except PyError (List ℚ) :=
  if index < sp.num_realizations then
    match sp.realizations[index]? with
    | some r => .ok r
    | none => .error .indexError
  else .error .valueError

/-- Embedding of the `ECGestimator` object state (src/modules/ECGestimator.py,
lines 4-27). -/
structure ECGestimator where
  stochastic_process : StochasticProcess
  sr : ℚ
  labels : List String
  P_len_samples : ℤ
  QRS_len_samples : ℤ
  T_len_samples : ℤ
  samples_before_QRS : ℚ
  samples_after_QRS : ℚ

/-- Constructor body of `ECGestimator.__init__`: stores the process, rate and
labels and precomputes the segment sample counts `int(duration * sr)` and the
asymmetric window spans; the body contains no validation and no raise. -/
def ECGestimator.init (stochastic_process : StochasticProcess)
    (P_wave_duration QRS_complex_duration T_wave_duration : ℚ) (sr : ℚ)
    (labels : List String) : ECGestimator :=
  { stochastic_process := stochastic_process
    sr := sr
    labels := labels
    P_len_samples := pyInt (P_wave_duration * sr)
    QRS_len_samples := pyInt (QRS_complex_duration * sr)
    T_len_samples := pyInt (T_wave_duration * sr)
    samples_before_QRS := (P_wave_duration + QRS_complex_duration / 2) * sr
    samples_after_QRS := (T_wave_duration + QRS_complex_duration / 2) * sr }

/-- Inner loop of `ECGestimator.get_real_ECGs` for one channel: for every peak
`p`, keep the window `signal[int(p - before) : int(p + after)]` and its bounds
exactly when `p - before > 0` and `p + after < len(signal)`. The single Python
pass appending to the two per-channel lists is rendered as one filter followed
by its two projections. -/
def ECGestimator.windowsOfSignal (est : ECGestimator) (signal : List ℚ)
    (peaks : List ℤ) : List (List ℚ) × List (ℤ × ℤ) :=
  ((peaks.filter fun (p : ℤ) =>
      decide (est.samples_before_QRS < (p : ℚ)) &&
      decide ((p : ℚ) + est.samples_after_QRS < (signal.length : ℚ))).map fun (p : ℤ) =>
      pySlice signal (pyInt ((p : ℚ) - est.samples_before_QRS))
        (pyInt ((p : ℚ) + est.samples_after_QRS)),
   (peaks.filter fun (p : ℤ) =>
      decide (est.samples_before_QRS < (p : ℚ)) &&
      decide ((p : ℚ) + est.samples_after_QRS < (signal.length : ℚ))).map fun (p : ℤ) =>
      (pyInt ((p : ℚ) - est.samples_before_QRS),
       pyInt ((p : ℚ) + est.samples_after_QRS)))

/-- Embedding of `ECGestimator.get_real_ECGs` (lines 30-55): per realization,
collect the kept ECG windows and their absolute bounds, keyed by label in
iteration order. -/
def ECGestimator.get_real_ECGs (est : ECGestimator) (peaks : List ℤ) :
    Except PyError (List (String × List (List ℚ)) × List (String × List (ℤ × ℤ))) :=
  match mapME (fun i =>
      match est.stochastic_process.get_realization_by_index i with
      | .error e => .error e
      | .ok signal =>
        match est.labels[i]? with
        | some realization => .ok (realization, est.windowsOfSignal signal peaks)
        | none => Except.error PyError.indexError)
    (List.range est.stochastic_process.num_realizations) with
  | .error e => .error e
  | .ok entries =>
    .ok (entries.map fun e => (e.1, e.2.1), entries.map fun e => (e.1, e.2.2))

/-- Embedding of `ECGestimator.get_ECG_averages` (lines 58-74): applies
`np.mean(.., axis=0)` to each channel's window list. The Python body has no
emptiness check and no raise; an empty list yields numpy's NaN mean (`none`). -/
def ECGestimator.get_ECG_averages (real_ECGs : List (String × List (List ℚ))) :
    List (String × Option (List ℚ)) :=
  real_ECGs.map fun e => (e.1, npMeanAxis0 e.2)

/-- Embedding of `ECGestimator.matrix_constructor` (lines 96-100): the three
columns passed to `np.column_stack([col_1, col_2, col_3])`. -/
def ECGestimator.matrix_constructor (mu_P mu_QRS mu_T : List ℚ) :
    List ℚ × List ℚ × List ℚ :=
  (mu_P ++ zerosQ (mu_QRS.length + mu_T.length),
   zerosQ mu_P.length ++ mu_QRS ++ zerosQ mu_T.length,
   zerosQ (mu_P.length + mu_QRS.length) ++ mu_T)

/-- Concrete 3x3 rational matrix, row major. -/
structure Mat3 where
  a11 : ℚ
  a12 : ℚ
  a13 : ℚ
  a21 : ℚ
  a22 : ℚ
  a23 : ℚ
  a31 : ℚ
  a32 : ℚ
  a33 : ℚ
  deriving DecidableEq

/-- Determinant of a 3x3 matrix. -/
def Mat3.det (A : Mat3) : ℚ :=
  A.a11 * (A.a22 * A.a33 - A.a23 * A.a32)
    - A.a12 * (A.a21 * A.a33 - A.a23 * A.a31)
    + A.a13 * (A.a21 * A.a32 - A.a22 * A.a31)

/-- Product of a 3x3 matrix with a 3-vector. -/
def Mat3.mulVec (A : Mat3) (v : ℚ × ℚ × ℚ) : ℚ × ℚ × ℚ :=
  (A.a11 * v.1 + A.a12 * v.2.1 + A.a13 * v.2.2,
   A.a21 * v.1 + A.a22 * v.2.1 + A.a23 * v.2.2,
   A.a31 * v.1 + A.a32 * v.2.1 + A.a33 * v.2.2)

/-- Model of `np.linalg.inv` on a 3x3 matrix: `LinAlgError` exactly on a
singular matrix (in exact arithmetic the LU factorization meets a zero pivot
if and only if the determinant vanishes), otherwise the adjugate formula. -/
def npLinalgInv3 (A : Mat3) : Except PyError Mat3 :=
  if A.det = 0 then .error .linAlgError
  else .ok
    ⟨(A.a22 * A.a33 - A.a23 * A.a32) / A.det,
     (A.a13 * A.a32 - A.a12 * A.a33) / A.det,
     (A.a12 * A.a23 - A.a13 * A.a22) / A.det,
     (A.a23 * A.a31 - A.a21 * A.a33) / A.det,
     (A.a11 * A.a33 - A.a13 * A.a31) / A.det,
     (A.a13 * A.a21 - A.a11 * A.a23) / A.det,
     (A.a21 * A.a32 - A.a22 * A.a31) / A.det,
     (A.a12 * A.a31 - A.a11 * A.a32) / A.det,
     (A.a11 * A.a22 - A.a12 * A.a21) / A.det⟩

/-- Embedding of `ECGestimator.get_optimized_scaled_values` (lines 119-133):
`a = inv(Mᵀ M) · (Mᵀ m)` with `M` given by its three columns (`self` is unused
by the Python body). `np.linalg.inv` raises `LinAlgError` on a singular Gram
matrix. -/
def ECGestimator.get_optimized_scaled_values (M : List ℚ × List ℚ × List ℚ)
    (m : List ℚ) : Except PyError (ℚ × ℚ × ℚ) :=
  match npLinalgInv3
    ⟨dotQ M.1 M.1, dotQ M.1 M.2.1, dotQ M.1 M.2.2,
     dotQ M.2.1 M.1, dotQ M.2.1 M.2.1, dotQ M.2.1 M.2.2,
     dotQ M.2.2 M.1, dotQ M.2.2 M.2.1, dotQ M.2.2 M.2.2⟩ with
  | .error e => .error e
  | .ok MTM_inv => .ok (MTM_inv.mulVec (dotQ M.1 m, dotQ M.2.1 m, dotQ M.2.2 m))

/-- Embedding of the `QRSdetector` object state (src/modules/QRSdetector.py,
lines 6-29). The sample rate is an integer, as documented and as required by
the integer divisions `len(enhanced) // sr` and `sr // 4` in the methods. -/
structure QRSdetector where
  stochastic_process : StochasticProcess
  template_duration : ℚ
  threshold_factor : ℚ
  sr : ℕ

/-- Constructor of `QRSdetector.__init__`: raises `ValueError` for a
non-positive template duration and for a threshold factor above 1. -/
def QRSdetector.init (stochastic_process : StochasticProcess)
    (template_duration threshold_factor : ℚ) (sr : ℕ) :
    Except PyError QRSdetector :=
  if template_duration ≤ 0 then .error .valueError
  else if 1 < threshold_factor then .error .valueError
  else .ok ⟨stochastic_process, template_duration, threshold_factor, sr⟩

/-- Loop body of `QRSdetector.create_qrs_template` (lines 64-85), factored out
of the embedding below: the `i`-th one-second analysis window is
`enhanced[i*sr : (i+1)*sr]`, its anchor is the first position of maximal
absolute amplitude, and the extraction around the global anchor index is kept
exactly when `anchor - half_qrs >= 0` and `anchor + half_qrs < len(enhanced)`. -/
def QRSdetector.template_windows (d : QRSdetector) (enhanced_QRS : List ℚ) :
    List (List ℚ) :=
  let window_length := d.sr
  let qrs_length := pyInt (d.template_duration * (d.sr : ℚ))
  let half_qrs := Int.fdiv qrs_length 2
  let num_windows := enhanced_QRS.length / window_length
  (List.range num_windows).filterMap fun i =>
    let start_idx := i * window_length
    let segment := (enhanced_QRS.drop start_idx).take window_length
    let max_idx := npArgmax (segment.map (fun v => |v|))
    let global_max_idx : ℤ := (start_idx : ℤ) + max_idx
    if 0 ≤ global_max_idx - half_qrs ∧
        global_max_idx + half_qrs < (enhanced_QRS.length : ℤ) then
      some (pySlice enhanced_QRS (global_max_idx - half_qrs) (global_max_idx + half_qrs))
    else none

/-- Embedding of `QRSdetector.create_qrs_template` (lines 51-91): a sample rate
of zero makes `len(enhanced_QRS) // window_length` a Python `ZeroDivisionError`;
otherwise the kept extractions are averaged sample-wise, and a `ValueError` is
raised exactly when no extraction survived (`npMeanAxis0` is `none` exactly on
the empty list). -/
def QRSdetector.create_qrs_template (d : QRSdetector) (enhanced_QRS : List ℚ) :
    Except PyError (List ℚ) :=
  if d.sr = 0 then .error .zeroDivisionError
  else
    match npMeanAxis0 (d.template_windows enhanced_QRS) with
    | some final_template => .ok final_template
    | none => .error .valueError

/-- Model of `scipy.signal.correlate(a, v, mode="full")` for 1-D real inputs
with `v` nonempty (scipy rejects empty inputs): entry `n` of the result is
`Σ_k v[k] · a[n + k - (len(v) - 1)]` with `a` read as zero outside its bounds,
the signed index test written in natural-number arithmetic
(`n + k - (len(v) - 1) = n + k + 1 - len(v)` is in range exactly when
`len(v) ≤ n + k + 1 < len(v) + len(a)`); the result has length
`len(a) + len(v) - 1`. -/
def npCorrelateFull (a v : List ℚ) : List ℚ :=
  (List.range (a.length + v.length - 1)).map fun n =>
    ((List.range v.length).map fun k =>
      v.getD k 0 *
        (if v.length ≤ n + k + 1 ∧ n + k + 1 - v.length < a.length then
          a.getD (n + k + 1 - v.length) 0
        else 0)).sum

/-- Inner plateau scan of scipy's `_local_maxima_1d`: starting from `j`, skip
over samples equal to `v` while staying left of `imax`. -/
def lmAhead (x : List ℚ) (v : ℚ) (imax : ℕ) (j : ℕ) : ℕ :=
  if j < imax ∧ x.getD j 0 = v then lmAhead x v imax (j + 1) else j
termination_by imax - j

/-- Plateau scans only move forward. -/
theorem lmAhead_ge (x : List ℚ) (v : ℚ) (imax j : ℕ) : j ≤ lmAhead x v imax j := by
  rw [lmAhead]
  split
  · exact le_trans (Nat.le_succ j) (lmAhead_ge x v imax (j + 1))
  · exact le_refl j
termination_by imax - j

/-- Main scan of scipy's `_local_maxima_1d`: `i` walks the interior samples;
a strict rise followed (possibly after a plateau) by a strict fall records the
plateau midpoint `(left + right) // 2` and resumes after the plateau. -/
def lmGo (x : List ℚ) (imax : ℕ) (i : ℕ) : List ℕ :=
  if _h : i < imax then
    if x.getD (i - 1) 0 < x.getD i 0 then
      let ia := lmAhead x (x.getD i 0) imax (i + 1)
      if x.getD ia 0 < x.getD i 0 then
        (i + (ia - 1)) / 2 :: lmGo x imax (ia + 1)
      else lmGo x imax (i + 1)
    else lmGo x imax (i + 1)
  else []
termination_by imax - i
decreasing_by
  · have := lmAhead_ge x (x.getD i 0) imax (i + 1)
    omega
  · omega
  · omega

/-- Local maxima (plateau midpoints) of a 1-D signal, as found by scipy's
`_local_maxima_1d`: interior samples only, scanned from index 1. -/
def localMaxima (x : List ℚ) : List ℕ := lmGo x (x.length - 1) 1

/-- One clearing step of scipy's `_select_by_peak_distance`: peak `j` was kept,
so every other not-yet-cleared peak strictly closer than `distance` to it is
cleared. Scipy scans contiguously left and right from `j`; since the peak
positions are sorted increasingly, that clears exactly the positions with
`|peaks[k] - peaks[j]| < distance`. -/
def clearNear (peaks : List ℤ) (distance : ℕ) (j : ℕ) (keep : List Bool) : List Bool :=
  (List.range keep.length).map fun k =>
    if k ≠ j ∧ (peaks.getD j 0 - peaks.getD k 0).natAbs < distance then false
    else keep.getD k false

/-- Priority loop of scipy's `_select_by_peak_distance`: process peak indices
from highest to lowest priority; a peak still kept when processed clears its
too-close neighbours. Flags are only ever cleared, never set. -/
def sbpdGo (peaks : List ℤ) (distance : ℕ) : List ℕ → List Bool → List Bool
  | [], keep => keep
  | j :: rest, keep =>
    if keep.getD j false then sbpdGo peaks distance rest (clearNear peaks distance j keep)
    else sbpdGo peaks distance rest keep

/-- Insertion step for sorting peak indices by decreasing priority (the
iteration order `np.argsort(priority)[::-1]` of scipy). -/
def insertDesc (priority : List ℚ) (a : ℕ) : List ℕ → List ℕ
  | [] => [a]
  | b :: l =>
    if priority.getD b 0 < priority.getD a 0 then a :: b :: l
    else b :: insertDesc priority a l

/-- Peak indices ordered by decreasing priority. Numpy's default argsort is
not stable, so the order among equal priorities is unspecified there; every
property proved below holds for any processing order, and the concrete
evaluations use pairwise distinct priorities. -/
def priorityOrder (priority : List ℚ) : List ℕ :=
  (List.range priority.length).foldr (insertDesc priority) []

/-- Model of scipy's `_select_by_peak_distance`: clear too-close neighbours of
each surviving peak in decreasing-priority order, then keep the survivors in
position order. -/
def selectByPeakDistance (peaks : List ℤ) (priority : List ℚ) (distance : ℕ) :
    List ℤ :=
  let n := peaks.length
  let keep := sbpdGo peaks distance (priorityOrder priority) (List.replicate n true)
  ((List.range n).filter fun m => keep.getD m false).map fun m => peaks.getD m 0

/-- Model of `scipy.signal.find_peaks(x, height=h, distance=d)` as called by
`detect_qrs`: a distance below 1 raises `ValueError`; otherwise local maxima
are filtered by height (`x[peak] >= h`) first, by minimal distance second. -/
def scipyFindPeaks (x : List ℚ) (height : ℚ) (distance : ℕ) :
    Except PyError (List ℕ) :=
  if distance < 1 then .error .valueError
  else
    let pks := (localMaxima x).filter fun p => decide (height ≤ x.getD p 0)
    let kept := selectByPeakDistance (pks.map fun (p : ℕ) => (p : ℤ))
      (pks.map fun (p : ℕ) => x.getD p 0) distance
    .ok (kept.map Int.toNat)

/-- Embedding of `QRSdetector.detect_qrs` (lines 94-120): full cross-correlation,
drop of the first `len(template) - 1` lags, normalization by the template's
squared norm, peak picking with `height = threshold_factor * max` and
`distance = sr // 4`, and the final shift by `len(template) // 2`.
`scipy.signal.correlate` rejects empty inputs with a `ValueError`. -/
def QRSdetector.detect_qrs (d : QRSdetector) (enhanced_QRS template : List ℚ) :
    Except PyError (List ℕ × List ℚ) :=
  if enhanced_QRS.isEmpty ∨ template.isEmpty then Except.error PyError.valueError
  else
    let cross_corr := (npCorrelateFull enhanced_QRS template).drop (template.length - 1)
    let norm_factor := normSq template
    let cross_corr_norm := cross_corr.map (· / norm_factor)
    match scipyFindPeaks cross_corr_norm
      (d.threshold_factor * npMax cross_corr_norm) (d.sr / 4) with
    | .error e => .error e
    | .ok peaks => .ok (peaks.map (· + template.length / 2), cross_corr_norm)

/-- Sliding dot product of the template with the signal starting at sample `i`
(the signal read as zero past its end): the specification's description of the
causal-aligned normalized cross-correlation at index `i`. -/
def specSlidingDot (e t : List ℚ) (i : ℕ) : ℚ :=
  ((List.range t.length).map fun k =>
    t.getD k 0 * (if i + k < e.length then e.getD (i + k) 0 else 0)).sum

/-- Vector sum of two equal-length sample vectors. -/
def vecAdd (a b : List ℚ) : List ℚ := List.zipWith (· + ·) a b

/-- Specification-side sample-wise mean of windows of common length `n`:
accumulate the vector sum, then divide each sample by the number of windows. -/
def meanSpec (ws : List (List ℚ)) (n : ℕ) : List ℚ :=
  (ws.foldl vecAdd (zerosQ n)).map fun s => s / (ws.length : ℚ)

/-! Helper lemmas about list access, slicing and dot products. -/

theorem getD_map_div (l : List ℚ) (c : ℚ) (j : ℕ) :
    (l.map fun x => x / c).getD j 0 = l.getD j 0 / c := by
  simp only [List.getD_eq_getElem?_getD, List.getElem?_map]
  cases l[j]? <;> simp

theorem getD_map_abs (l : List ℚ) (j : ℕ) :
    (l.map fun v => |v|).getD j 0 = |l.getD j 0| := by
  simp only [List.getD_eq_getElem?_getD, List.getElem?_map]
  cases l[j]? <;> simp

theorem getD_map_intCast (l : List ℕ) (j : ℕ) :
    (l.map fun p => (p : ℤ)).getD j 0 = ((l.getD j 0 : ℕ) : ℤ) := by
  induction l generalizing j with
  | nil => simp
  | cons a l ih =>
    cases j with
    | zero => simp
    | succ j => simpa using ih j

theorem mapRange_getD {β : Type} (f : ℕ → β) (n i : ℕ) (d : β) (h : i < n) :
    ((List.range n).map f).getD i d = f i := by
  rw [List.getD_eq_getElem ((List.range n).map f) d (by simpa using h)]
  simp

theorem getD_mem {α : Type} (l : List α) (m : ℕ) (d : α) (h : m < l.length) :
    l.getD m d ∈ l := by
  rw [List.getD_eq_getElem l d h]
  exact List.getElem_mem h

theorem pyInt_intCast (n : ℤ) : pyInt (n : ℚ) = n := by
  unfold pyInt
  split <;> simp

theorem pySlice_length (xs : List ℚ) (a b : ℤ) (h0 : 0 ≤ a) (hab : a ≤ b)
    (hb : b ≤ (xs.length : ℤ)) : ((pySlice xs a b).length : ℤ) = b - a := by
  have ha' : pyIdx xs.length a = a.toNat := by
    unfold pyIdx
    rw [if_neg (by omega)]
    omega
  have hb' : pyIdx xs.length b = b.toNat := by
    unfold pyIdx
    rw [if_neg (by omega)]
    omega
  unfold pySlice
  rw [ha', hb', List.length_drop, List.length_take]
  omega

theorem dotQ_nil_left (ys : List ℚ) : dotQ [] ys = 0 := by simp [dotQ]

theorem dotQ_nil_right (xs : List ℚ) : dotQ xs [] = 0 := by simp [dotQ]

theorem dotQ_zeros_left (n : ℕ) (ys : List ℚ) : dotQ (zerosQ n) ys = 0 := by
  induction n generalizing ys with
  | zero => simp [dotQ, zerosQ]
  | succ n ih =>
    cases ys with
    | nil => simp [dotQ]
    | cons y ys => simpa [dotQ, zerosQ, List.replicate_succ] using ih ys

theorem dotQ_zeros_right (xs : List ℚ) (n : ℕ) : dotQ xs (zerosQ n) = 0 := by
  induction xs generalizing n with
  | nil => simp [dotQ]
  | cons x xs ih =>
    cases n with
    | zero => simp [dotQ, zerosQ]
    | succ n => simpa [dotQ, zerosQ, List.replicate_succ] using ih n

theorem dotQ_append (a b c d : List ℚ) (h : a.length = c.length) :
    dotQ (a ++ b) (c ++ d) = dotQ a c + dotQ b d := by
  simp [dotQ, List.zipWith_append (fun x1 x2 => x1 * x2) a b c d h]

/-! Helper lemmas about `mapME` and sample-wise means. -/

theorem mapME_eq_ok {α β : Type} (f : α → Except PyError β) (g : α → β) :
    ∀ l : List α, (∀ x ∈ l, f x = .ok (g x)) → mapME f l = .ok (l.map g) := by
  intro l
  induction l with
  | nil => intro _; simp [mapME]
  | cons a l ih =>
    intro h
    have ha := h a (by simp)
    have hl := ih fun x hx => h x (by simp [hx])
    simp [mapME, ha, hl]

theorem mapME_ok_mem {α β : Type} (f : α → Except PyError β) :
    ∀ (l : List α) (ys : List β), mapME f l = .ok ys →
      ∀ y ∈ ys, ∃ x ∈ l, f x = .ok y := by
  intro l
  induction l with
  | nil =>
    intro ys h y hy
    simp [mapME] at h
    subst h
    simp at hy
  | cons a l ih =>
    intro ys h y hy
    rw [mapME] at h
    cases hfa : f a with
    | error e => rw [hfa] at h; exact absurd h (by simp)
    | ok b =>
      rw [hfa] at h
      cases hml : mapME f l with
      | error e => rw [hml] at h; exact absurd h (by simp)
      | ok bs =>
        rw [hml] at h
        have hys : ys = b :: bs := by
          have := h
          simp at this
          exact this.symm
        subst hys
        rcases List.mem_cons.mp hy with rfl | hmem
        · exact ⟨a, by simp, hfa⟩
        · obtain ⟨x, hx, hfx⟩ := ih bs hml y hmem
          exact ⟨x, by simp [hx], hfx⟩

theorem vecAdd_getD (a : List ℚ) :
    ∀ (b : List ℚ), a.length = b.length →
      ∀ j, (vecAdd a b).getD j 0 = a.getD j 0 + b.getD j 0 := by
  induction a with
  | nil =>
    intro b hb j
    cases b with
    | nil => simp [vecAdd]
    | cons y ys => simp at hb
  | cons x xs ih =>
    intro b hb j
    cases b with
    | nil => simp at hb
    | cons y ys =>
      cases j with
      | zero => simp [vecAdd]
      | succ j =>
        have := ih ys (by simpa using hb) j
        simpa [vecAdd] using this

theorem foldl_vecAdd_getD (n : ℕ) :
    ∀ (ws : List (List ℚ)), (∀ w ∈ ws, w.length = n) →
      ∀ acc : List ℚ, acc.length = n →
        (ws.foldl vecAdd acc).length = n ∧
        ∀ j, (ws.foldl vecAdd acc).getD j 0 =
          acc.getD j 0 + (ws.map fun v => v.getD j 0).sum := by
  intro ws
  induction ws with
  | nil => intro _ acc hacc; simp [hacc]
  | cons w ws ih =>
    intro hrect acc hacc
    have hw : w.length = n := hrect w (by simp)
    have hlen : (vecAdd acc w).length = n := by
      simp [vecAdd, hacc, hw]
    obtain ⟨ihlen, ihget⟩ :=
      ih (fun x hx => hrect x (by simp [hx])) (vecAdd acc w) hlen
    refine ⟨by simpa using ihlen, fun j => ?_⟩
    have hvg := vecAdd_getD acc w (by rw [hacc, hw]) j
    simp only [List.foldl_cons]
    rw [ihget j, hvg]
    simp [add_assoc]

theorem npMeanAxis0_eq_meanSpec (ws : List (List ℚ)) (n : ℕ) (hne : ws ≠ [])
    (hrect : ∀ w ∈ ws, w.length = n) :
    npMeanAxis0 ws = some (meanSpec ws n) := by
  obtain ⟨w, ws', rfl⟩ := List.exists_cons_of_ne_nil hne
  have hw : w.length = n := hrect w (by simp)
  obtain ⟨hslen, hsget⟩ :=
    foldl_vecAdd_getD n (w :: ws') hrect (zerosQ n) (by simp [zerosQ])
  unfold npMeanAxis0 meanSpec
  refine congrArg some (List.ext_getElem ?_ ?_)
  · rw [List.length_map, List.length_map, List.length_range, hw, hslen]
  · intro i h1 h2
    have hi : i < n := by simpa [hw] using h1
    have hL : ((List.range w.length).map fun j =>
        ((w :: ws').map fun v => v.getD j 0).sum / (((w :: ws').length : ℕ) : ℚ)).getD i 0 =
        ((w :: ws').map fun v => v.getD i 0).sum / (((w :: ws').length : ℕ) : ℚ) :=
      mapRange_getD _ _ _ _ (by omega)
    have hR : ((((w :: ws').foldl vecAdd (zerosQ n))).map fun s =>
        s / (((w :: ws').length : ℕ) : ℚ)).getD i 0 =
        ((w :: ws').foldl vecAdd (zerosQ n)).getD i 0 / (((w :: ws').length : ℕ) : ℚ) :=
      getD_map_div _ _ _
    rw [← List.getD_eq_getElem _ 0 h1, ← List.getD_eq_getElem _ 0 h2]
    rw [hL, hR, hsget i]
    simp [zerosQ]

/-! Helper lemmas about the block basis matrix and the normal-equations solve. -/

theorem zerosQ_add (a b : ℕ) : zerosQ (a + b) = zerosQ a ++ zerosQ b := by
  unfold zerosQ
  rw [List.replicate_add]

theorem dotQ_comm (xs ys : List ℚ) : dotQ xs ys = dotQ ys xs := by
  unfold dotQ
  rw [List.zipWith_comm (· * ·)]
  simp [mul_comm]

theorem mc_c1_c1 (P Q T : List ℚ) :
    dotQ (ECGestimator.matrix_constructor P Q T).1
      (ECGestimator.matrix_constructor P Q T).1 = normSq P := by
  unfold ECGestimator.matrix_constructor
  dsimp only
  rw [dotQ_append P _ P _ rfl, dotQ_zeros_left, normSq]
  ring

theorem mc_c2_c2 (P Q T : List ℚ) :
    dotQ (ECGestimator.matrix_constructor P Q T).2.1
      (ECGestimator.matrix_constructor P Q T).2.1 = normSq Q := by
  unfold ECGestimator.matrix_constructor
  dsimp only
  rw [dotQ_append (zerosQ P.length ++ Q) (zerosQ T.length)
      (zerosQ P.length ++ Q) (zerosQ T.length) rfl,
    dotQ_append (zerosQ P.length) Q (zerosQ P.length) Q rfl,
    dotQ_zeros_left, dotQ_zeros_left, normSq]
  ring

theorem mc_c3_c3 (P Q T : List ℚ) :
    dotQ (ECGestimator.matrix_constructor P Q T).2.2
      (ECGestimator.matrix_constructor P Q T).2.2 = normSq T := by
  unfold ECGestimator.matrix_constructor
  dsimp only
  rw [dotQ_append _ _ _ _ rfl, dotQ_zeros_left, normSq]
  ring

theorem mc_c1_c2 (P Q T : List ℚ) :
    dotQ (ECGestimator.matrix_constructor P Q T).1
      (ECGestimator.matrix_constructor P Q T).2.1 = 0 := by
  unfold ECGestimator.matrix_constructor
  dsimp only
  rw [List.append_assoc (zerosQ P.length) Q (zerosQ T.length),
    dotQ_append P _ (zerosQ P.length) _ (by simp [zerosQ]),
    dotQ_zeros_right, dotQ_zeros_left]
  ring

theorem mc_c1_c3 (P Q T : List ℚ) :
    dotQ (ECGestimator.matrix_constructor P Q T).1
      (ECGestimator.matrix_constructor P Q T).2.2 = 0 := by
  unfold ECGestimator.matrix_constructor
  dsimp only
  rw [zerosQ_add P.length Q.length,
    List.append_assoc (zerosQ P.length) (zerosQ Q.length) T,
    dotQ_append P _ (zerosQ P.length) _ (by simp [zerosQ]),
    dotQ_zeros_right, dotQ_zeros_left]
  ring

theorem mc_c2_c3 (P Q T : List ℚ) :
    dotQ (ECGestimator.matrix_constructor P Q T).2.1
      (ECGestimator.matrix_constructor P Q T).2.2 = 0 := by
  unfold ECGestimator.matrix_constructor
  dsimp only
  rw [zerosQ_add P.length Q.length,
    dotQ_append (zerosQ P.length ++ Q) (zerosQ T.length)
      (zerosQ P.length ++ zerosQ Q.length) T (by simp [zerosQ]),
    dotQ_append (zerosQ P.length) Q (zerosQ P.length) (zerosQ Q.length) rfl,
    dotQ_zeros_left, dotQ_zeros_left, dotQ_zeros_right]
  ring

theorem mc_c1_m (P Q T m : List ℚ) (hm : P.length ≤ m.length) :
    dotQ (ECGestimator.matrix_constructor P Q T).1 m
      = dotQ P (m.take P.length) := by
  unfold ECGestimator.matrix_constructor
  dsimp only
  conv_lhs => rw [← List.take_append_drop P.length m]
  rw [dotQ_append P _ _ _ (by rw [List.length_take]; omega), dotQ_zeros_left]
  ring

theorem mc_c2_m (P Q T m : List ℚ) (hm : P.length + Q.length ≤ m.length) :
    dotQ (ECGestimator.matrix_constructor P Q T).2.1 m
      = dotQ Q ((m.drop P.length).take Q.length) := by
  unfold ECGestimator.matrix_constructor
  dsimp only
  conv_lhs => rw [← List.take_append_drop (P.length + Q.length) m]
  rw [dotQ_append (zerosQ P.length ++ Q) (zerosQ T.length) _ _
      (by simp [zerosQ, List.length_take]; omega),
    dotQ_zeros_left]
  conv_lhs => rw [← List.take_append_drop P.length (m.take (P.length + Q.length))]
  rw [dotQ_append (zerosQ P.length) Q _ _
      (by simp [zerosQ, List.length_take]; omega),
    dotQ_zeros_left, List.drop_take]
  have hq : P.length + Q.length - P.length = Q.length := by omega
  rw [hq]
  ring

theorem mc_c3_m (P Q T m : List ℚ) (hm : P.length + Q.length ≤ m.length) :
    dotQ (ECGestimator.matrix_constructor P Q T).2.2 m
      = dotQ T (m.drop (P.length + Q.length)) := by
  unfold ECGestimator.matrix_constructor
  dsimp only
  conv_lhs => rw [← List.take_append_drop (P.length + Q.length) m]
  rw [dotQ_append _ _ _ _ (by simp [zerosQ, List.length_take]; omega), dotQ_zeros_left]
  ring

theorem solve_on_basis (P Q T m : List ℚ) (hm : P.length + Q.length ≤ m.length)
    (hP : normSq P ≠ 0) (hQ : normSq Q ≠ 0) (hT : normSq T ≠ 0) :
    ECGestimator.get_optimized_scaled_values (ECGestimator.matrix_constructor P Q T) m =
      .ok (dotQ P (m.take P.length) / normSq P,
           dotQ Q ((m.drop P.length).take Q.length) / normSq Q,
           dotQ T (m.drop (P.length + Q.length)) / normSq T) := by
  unfold ECGestimator.get_optimized_scaled_values
  rw [mc_c1_c1, mc_c1_c2, mc_c1_c3, mc_c2_c3, mc_c2_c2, mc_c3_c3,
    dotQ_comm (ECGestimator.matrix_constructor P Q T).2.1
      (ECGestimator.matrix_constructor P Q T).1,
    dotQ_comm (ECGestimator.matrix_constructor P Q T).2.2
      (ECGestimator.matrix_constructor P Q T).1,
    dotQ_comm (ECGestimator.matrix_constructor P Q T).2.2
      (ECGestimator.matrix_constructor P Q T).2.1,
    mc_c1_c2, mc_c1_c3, mc_c2_c3,
    mc_c1_m P Q T m (by omega), mc_c2_m P Q T m hm, mc_c3_m P Q T m hm]
  have hdet : Mat3.det ⟨normSq P, 0, 0, 0, normSq Q, 0, 0, 0, normSq T⟩
      = normSq P * normSq Q * normSq T := by
    simp [Mat3.det]
    ring
  rw [npLinalgInv3, hdet, if_neg (by exact mul_ne_zero (mul_ne_zero hP hQ) hT)]
  show Except.ok _ = _
  simp only [Mat3.mulVec]
  refine congrArg Except.ok ?_
  refine Prod.ext ?_ (Prod.ext ?_ ?_) <;> field_simp <;> ring

theorem solve_isError_iff (P Q T m : List ℚ) :
    isErr (ECGestimator.get_optimized_scaled_values
      (ECGestimator.matrix_constructor P Q T) m) = true ↔
      (normSq P = 0 ∨ normSq Q = 0 ∨ normSq T = 0) := by
  unfold ECGestimator.get_optimized_scaled_values
  rw [mc_c1_c1, mc_c1_c2, mc_c1_c3, mc_c2_c3, mc_c2_c2, mc_c3_c3,
    dotQ_comm (ECGestimator.matrix_constructor P Q T).2.1
      (ECGestimator.matrix_constructor P Q T).1,
    dotQ_comm (ECGestimator.matrix_constructor P Q T).2.2
      (ECGestimator.matrix_constructor P Q T).1,
    dotQ_comm (ECGestimator.matrix_constructor P Q T).2.2
      (ECGestimator.matrix_constructor P Q T).2.1,
    mc_c1_c2, mc_c1_c3, mc_c2_c3]
  have hdet : Mat3.det ⟨normSq P, 0, 0, 0, normSq Q, 0, 0, 0, normSq T⟩
      = normSq P * normSq Q * normSq T := by
    simp [Mat3.det]
    ring
  rw [npLinalgInv3, hdet]
  by_cases h : normSq P * normSq Q * normSq T = 0
  · rw [if_pos h]
    simp only [isErr]
    constructor
    · intro _
      rcases mul_eq_zero.mp h with h' | h'
      · rcases mul_eq_zero.mp h' with h'' | h''
        · exact Or.inl h''
        · exact Or.inr (Or.inl h'')
      · exact Or.inr (Or.inr h')
    · intro _; trivial
  · rw [if_neg h]
    simp only [isErr]
    constructor
    · intro hfalse; exact absurd hfalse (by simp)
    · intro hz
      exfalso
      apply h
      rcases hz with h' | h' | h' <;> simp [h']

/-- C9: the Gram matrix `MᵗM` of every basis matrix built by
`matrix_constructor` is diagonal — the off-diagonal column dot products vanish
exactly and the diagonal entries are the squared norms of the three segments —
and therefore, when all three segment norms are nonzero,
`get_optimized_scaled_values` returns the three independent per-segment
projections `aᵢ = ⟨window segment i, μᵢ⟩ / ‖μᵢ‖²`. -/
theorem c9_block_diagonal (mu_P mu_QRS mu_T m : List ℚ)
    (hm : m.length = mu_P.length + mu_QRS.length + mu_T.length)
    (hP : normSq mu_P ≠ 0) (hQ : normSq mu_QRS ≠ 0) (hT : normSq mu_T ≠ 0) :
    dotQ (ECGestimator.matrix_constructor mu_P mu_QRS mu_T).1
      (ECGestimator.matrix_constructor mu_P mu_QRS mu_T).2.1 = 0 ∧
    dotQ (ECGestimator.matrix_constructor mu_P mu_QRS mu_T).1
      (ECGestimator.matrix_constructor mu_P mu_QRS mu_T).2.2 = 0 ∧
    dotQ (ECGestimator.matrix_constructor mu_P mu_QRS mu_T).2.1
      (ECGestimator.matrix_constructor mu_P mu_QRS mu_T).2.2 = 0 ∧
    dotQ (ECGestimator.matrix_constructor mu_P mu_QRS mu_T).1
      (ECGestimator.matrix_constructor mu_P mu_QRS mu_T).1 = normSq mu_P ∧
    dotQ (ECGestimator.matrix_constructor mu_P mu_QRS mu_T).2.1
      (ECGestimator.matrix_constructor mu_P mu_QRS mu_T).2.1 = normSq mu_QRS ∧
    dotQ (ECGestimator.matrix_constructor mu_P mu_QRS mu_T).2.2
      (ECGestimator.matrix_constructor mu_P mu_QRS mu_T).2.2 = normSq mu_T ∧
    ECGestimator.get_optimized_scaled_values
      (ECGestimator.matrix_constructor mu_P mu_QRS mu_T) m =
      .ok (dotQ mu_P (m.take mu_P.length) / normSq mu_P,
           dotQ mu_QRS ((m.drop mu_P.length).take mu_QRS.length) / normSq mu_QRS,
           dotQ mu_T (m.drop (mu_P.length + mu_QRS.length)) / normSq mu_T) :=
  ⟨mc_c1_c2 mu_P mu_QRS mu_T, mc_c1_c3 mu_P mu_QRS mu_T, mc_c2_c3 mu_P mu_QRS mu_T,
   mc_c1_c1 mu_P mu_QRS mu_T, mc_c2_c2 mu_P mu_QRS mu_T, mc_c3_c3 mu_P mu_QRS mu_T,
   solve_on_basis mu_P mu_QRS mu_T m (by omega) hP hQ hT⟩

/-- C9 witness: the theorem applied to the unit segments `[1], [1], [1]` and the
window `[2, 3, 4]`, whose hypotheses are discharged by computation. -/
theorem c9_block_diagonal_witness :
    ([(2:ℚ), 3, 4].length = [(1:ℚ)].length + [(1:ℚ)].length + [(1:ℚ)].length ∧
      normSq [(1:ℚ)] ≠ 0) ∧
    ECGestimator.get_optimized_scaled_values
      (ECGestimator.matrix_constructor [(1:ℚ)] [(1:ℚ)] [(1:ℚ)]) [2, 3, 4] =
      .ok (dotQ [(1:ℚ)] ([(2:ℚ), 3, 4].take [(1:ℚ)].length) / normSq [(1:ℚ)],
           dotQ [(1:ℚ)] (([(2:ℚ), 3, 4].drop [(1:ℚ)].length).take [(1:ℚ)].length) /
             normSq [(1:ℚ)],
           dotQ [(1:ℚ)] ([(2:ℚ), 3, 4].drop ([(1:ℚ)].length + [(1:ℚ)].length)) /
             normSq [(1:ℚ)]) := by
  have h1 : [(2:ℚ), 3, 4].length = [(1:ℚ)].length + [(1:ℚ)].length + [(1:ℚ)].length := by
    norm_num
  have h2 : normSq [(1:ℚ)] ≠ 0 := by norm_num [normSq, dotQ]
  exact ⟨⟨h1, h2⟩,
    (c9_block_diagonal [(1:ℚ)] [(1:ℚ)] [(1:ℚ)] [2, 3, 4] h1 h2 h2 h2).2.2.2.2.2.2⟩

/-- C6 counterexample: the basis segment `[10⁻⁹]` has near-zero norm
(`‖μ_P‖² = 10⁻¹⁸`, far below any conditioning tolerance), yet
`get_optimized_scaled_values` raises nothing and returns the huge coefficient
`10⁹`: the code only signals on an exactly singular Gram matrix. -/
theorem c6_counterexample :
    ECGestimator.get_optimized_scaled_values
      (ECGestimator.matrix_constructor [1/1000000000] [1] [1]) [1, 1, 1] =
      .ok (1000000000, 1, 1) ∧
    normSq [(1:ℚ)/1000000000] = 1/1000000000000000000 := by
  constructor
  · norm_num [ECGestimator.get_optimized_scaled_values,
      ECGestimator.matrix_constructor, zerosQ, List.replicate, npLinalgInv3,
      Mat3.det, Mat3.mulVec, normSq, dotQ]
  · norm_num [normSq, dotQ]

/-- C6 (amended): `get_optimized_scaled_values` raises `LinAlgError` exactly
when one of the basis segments has exactly zero norm (is the zero vector), the
only case in which `MᵗM` is singular; for nonzero norms — however small — it
returns the closed-form normal-equations solution, the per-segment
projections. -/
theorem c6_solve_amended (mu_P mu_QRS mu_T m : List ℚ) :
    (isErr (ECGestimator.get_optimized_scaled_values
        (ECGestimator.matrix_constructor mu_P mu_QRS mu_T) m) = true ↔
      (normSq mu_P = 0 ∨ normSq mu_QRS = 0 ∨ normSq mu_T = 0)) ∧
    (mu_P.length + mu_QRS.length ≤ m.length → normSq mu_P ≠ 0 →
      normSq mu_QRS ≠ 0 → normSq mu_T ≠ 0 →
      ECGestimator.get_optimized_scaled_values
        (ECGestimator.matrix_constructor mu_P mu_QRS mu_T) m =
        .ok (dotQ mu_P (m.take mu_P.length) / normSq mu_P,
             dotQ mu_QRS ((m.drop mu_P.length).take mu_QRS.length) / normSq mu_QRS,
             dotQ mu_T (m.drop (mu_P.length + mu_QRS.length)) / normSq mu_T)) :=
  ⟨solve_isError_iff mu_P mu_QRS mu_T m,
   fun hm hP hQ hT => solve_on_basis mu_P mu_QRS mu_T m hm hP hQ hT⟩

/-- C6 witness: the amended theorem applied to the segments `[1], [1], [1]` and
the window `[5, 6, 7]`. -/
theorem c6_solve_amended_witness :
    ([(1:ℚ)].length + [(1:ℚ)].length ≤ [(5:ℚ), 6, 7].length ∧ normSq [(1:ℚ)] ≠ 0) ∧
    ECGestimator.get_optimized_scaled_values
      (ECGestimator.matrix_constructor [(1:ℚ)] [(1:ℚ)] [(1:ℚ)]) [5, 6, 7] =
      .ok (dotQ [(1:ℚ)] ([(5:ℚ), 6, 7].take [(1:ℚ)].length) / normSq [(1:ℚ)],
           dotQ [(1:ℚ)] (([(5:ℚ), 6, 7].drop [(1:ℚ)].length).take [(1:ℚ)].length) /
             normSq [(1:ℚ)],
           dotQ [(1:ℚ)] ([(5:ℚ), 6, 7].drop ([(1:ℚ)].length + [(1:ℚ)].length)) /
             normSq [(1:ℚ)]) := by
  have h1 : [(1:ℚ)].length + [(1:ℚ)].length ≤ [(5:ℚ), 6, 7].length := by norm_num
  have h2 : normSq [(1:ℚ)] ≠ 0 := by norm_num [normSq, dotQ]
  exact ⟨⟨h1, h2⟩,
    (c6_solve_amended [(1:ℚ)] [(1:ℚ)] [(1:ℚ)] [5, 6, 7]).2 h1 h2 h2 h2⟩

/-- C10: the `ECGestimator` constructor performs no parameter validation at
all: for every input — zero or negative wave durations and non-positive sample
rates included — construction succeeds without raising and just stores the
documented field values; by contrast the `QRSdetector` constructor rejects an
invalid configuration (here: a zero template duration) with an error. -/
theorem c10_constructor_no_validation :
    (∀ (sp : StochasticProcess) (P_d QRS_d T_d sr : ℚ) (labels : List String),
      ECGestimator.init sp P_d QRS_d T_d sr labels =
        { stochastic_process := sp, sr := sr, labels := labels,
          P_len_samples := pyInt (P_d * sr),
          QRS_len_samples := pyInt (QRS_d * sr),
          T_len_samples := pyInt (T_d * sr),
          samples_before_QRS := (P_d + QRS_d / 2) * sr,
          samples_after_QRS := (T_d + QRS_d / 2) * sr }) ∧
    (∀ (sp : StochasticProcess) (tf : ℚ) (sr : ℕ),
      isErr (QRSdetector.init sp 0 tf sr) = true) := by
  refine ⟨fun sp P_d QRS_d T_d sr labels => rfl, fun sp tf sr => ?_⟩
  simp [QRSdetector.init, isErr]

/-- C5 counterexample: `get_ECG_averages` does not raise on a channel with an
empty window list — the run returns normally, mapping the empty channel `A` to
numpy's NaN mean (modelled `none`) while averaging channel `B` as usual. -/
theorem c5_counterexample :
    ECGestimator.get_ECG_averages [("A", []), ("B", [[1, 2], [3, 4]])] =
      [("A", none), ("B", some [2, 3])] := by
  norm_num [ECGestimator.get_ECG_averages, npMeanAxis0, List.range_succ]

/-- C5 (amended): `get_ECG_averages` never raises: a channel whose kept-window
list is empty is mapped to the undefined NaN mean (`none`), and a channel with
a non-empty list of equal-length windows is mapped to the sample-wise
arithmetic mean of its windows. -/
theorem c5_averages_amended (real_ECGs : List (String × List (List ℚ)))
    (label : String) (ws : List (List ℚ)) (n : ℕ)
    (hmem : (label, ws) ∈ real_ECGs) :
    (ws = [] → (label, none) ∈ ECGestimator.get_ECG_averages real_ECGs) ∧
    (ws ≠ [] → (∀ w ∈ ws, w.length = n) →
      (label, some (meanSpec ws n)) ∈ ECGestimator.get_ECG_averages real_ECGs) := by
  constructor
  · intro h
    subst h
    simpa [ECGestimator.get_ECG_averages, npMeanAxis0] using
      List.mem_map_of_mem (fun e => (e.1, npMeanAxis0 e.2)) hmem
  · intro hne hrect
    have h := npMeanAxis0_eq_meanSpec ws n hne hrect
    have hmap := List.mem_map_of_mem (fun e => (e.1, npMeanAxis0 e.2)) hmem
    rw [show (fun (e : String × List (List ℚ)) => (e.1, npMeanAxis0 e.2)) (label, ws)
        = (label, npMeanAxis0 ws) from rfl, h] at hmap
    exact hmap

/-- C5 witness: the amended theorem applied to a one-channel dictionary with
two windows of length 2. -/
theorem c5_averages_amended_witness :
    (("B", [[(1:ℚ), 2], [3, 4]]) ∈ [("B", [[(1:ℚ), 2], [3, 4]])] ∧
      ([[(1:ℚ), 2], [3, 4]] : List (List ℚ)) ≠ []) ∧
    ("B", some (meanSpec [[(1:ℚ), 2], [3, 4]] 2)) ∈
      ECGestimator.get_ECG_averages [("B", [[(1:ℚ), 2], [3, 4]])] := by
  have hmem : ("B", [[(1:ℚ), 2], [3, 4]]) ∈ [("B", [[(1:ℚ), 2], [3, 4]])] := by simp
  have hne : ([[(1:ℚ), 2], [3, 4]] : List (List ℚ)) ≠ [] := by simp
  exact ⟨⟨hmem, hne⟩,
    (c5_averages_amended [("B", [[(1:ℚ), 2], [3, 4]])] "B" [[(1:ℚ), 2], [3, 4]] 2
      hmem).2 hne (by norm_num)⟩

/-! Helper lemmas for the window extraction of `get_real_ECGs`. -/

theorem window_length_of_kept (signal : List ℚ) (p : ℤ) (B A : ℚ)
    (hB : 0 ≤ B) (hA : 0 ≤ A) (h1 : B < (p : ℚ))
    (h2 : (p : ℚ) + A < (signal.length : ℚ)) :
    ((pySlice signal (pyInt ((p : ℚ) - B)) (pyInt ((p : ℚ) + A))).length : ℤ)
      = ⌈B⌉ + ⌊A⌋ := by
  have hp0 : (0 : ℚ) < (p : ℚ) := lt_of_le_of_lt hB h1
  have hp1 : (1 : ℤ) ≤ p := by exact_mod_cast hp0
  have hceil_le : ⌈B⌉ ≤ p := by
    rw [Int.ceil_le]
    exact le_of_lt h1
  have hceil0 : 0 ≤ ⌈B⌉ := Int.ceil_nonneg hB
  have hfloor0 : 0 ≤ ⌊A⌋ := Int.floor_nonneg.mpr hA
  have ha' : pyInt ((p : ℚ) - B) = p - ⌈B⌉ := by
    unfold pyInt
    rw [if_pos (by linarith), sub_eq_add_neg, Int.floor_int_add, Int.floor_neg]
    omega
  have hb' : pyInt ((p : ℚ) + A) = p + ⌊A⌋ := by
    unfold pyInt
    rw [if_pos (by linarith), Int.floor_int_add]
  have hblt : p + ⌊A⌋ < (signal.length : ℤ) := by
    have := Int.floor_lt.mpr h2
    rwa [Int.floor_int_add] at this
  rw [ha', hb', pySlice_length signal _ _ (by omega) (by omega) (by omega)]
  omega

theorem ceil_add_floor_half (b : ℤ) : ⌈(b : ℚ) / 2⌉ + ⌊(b : ℚ) / 2⌋ = b := by
  rcases Int.even_or_odd b with ⟨k, hk⟩ | ⟨k, hk⟩
  · subst hk
    have h : ((k + k : ℤ) : ℚ) / 2 = ((k : ℤ) : ℚ) := by push_cast; ring
    rw [h, Int.ceil_intCast, Int.floor_intCast]
  · subst hk
    have h : ((2 * k + 1 : ℤ) : ℚ) / 2 = ((k : ℤ) : ℚ) + 1 / 2 := by push_cast; ring
    rw [h]
    have hf : ⌊((k : ℤ) : ℚ) + 1 / 2⌋ = k := by
      rw [Int.floor_int_add]
      norm_num
    have hc : ⌈((k : ℤ) : ℚ) + 1 / 2⌉ = k + 1 := by
      rw [Int.ceil_eq_iff]
      constructor
      · push_cast
        linarith
      · push_cast
        linarith
    omega

theorem windowsOfSignal_fst_mem (est : ECGestimator) (signal : List ℚ)
    (peaks : List ℤ) (w : List ℚ) (hw : w ∈ (est.windowsOfSignal signal peaks).1) :
    ∃ p : ℤ, p ∈ peaks ∧ est.samples_before_QRS < (p : ℚ) ∧
      (p : ℚ) + est.samples_after_QRS < (signal.length : ℚ) ∧
      w = pySlice signal (pyInt ((p : ℚ) - est.samples_before_QRS))
        (pyInt ((p : ℚ) + est.samples_after_QRS)) := by
  revert hw
  unfold ECGestimator.windowsOfSignal
  dsimp only
  intro hw
  obtain ⟨p, hpf, hweq⟩ := List.mem_map.mp hw
  have hcond := (List.mem_filter.mp hpf).2
  simp only [Bool.and_eq_true, decide_eq_true_eq] at hcond
  exact ⟨p, (List.mem_filter.mp hpf).1, hcond.1, hcond.2, hweq.symm⟩

theorem get_real_ECGs_window_length (est : ECGestimator) (peaks : List ℤ)
    (ecgs : List (String × List (List ℚ))) (poss : List (String × List (ℤ × ℤ)))
    (hB : 0 ≤ est.samples_before_QRS) (hA : 0 ≤ est.samples_after_QRS)
    (hok : est.get_real_ECGs peaks = .ok (ecgs, poss)) :
    ∀ entry ∈ ecgs, ∀ w ∈ entry.2,
      (w.length : ℤ) = ⌈est.samples_before_QRS⌉ + ⌊est.samples_after_QRS⌋ := by
  intro entry hentry w hw
  revert hok
  unfold ECGestimator.get_real_ECGs
  cases hm : mapME (fun i =>
      match est.stochastic_process.get_realization_by_index i with
      | .error e => .error e
      | .ok signal =>
        match est.labels[i]? with
        | some realization => .ok (realization, est.windowsOfSignal signal peaks)
        | none => Except.error PyError.indexError)
    (List.range est.stochastic_process.num_realizations) with
  | error e => intro hok; exact absurd hok (by simp)
  | ok entries =>
    intro hok
    have hpair : entries.map (fun e => (e.1, e.2.1)) = ecgs := by
      have := hok
      simp only [Except.ok.injEq, Prod.mk.injEq] at this
      exact this.1
    rw [← hpair] at hentry
    obtain ⟨e, hel, rfl⟩ := List.mem_map.mp hentry
    obtain ⟨i, _, hfe⟩ := mapME_ok_mem _ _ _ hm e hel
    revert hfe
    cases hg : est.stochastic_process.get_realization_by_index i with
    | error e1 => intro hfe; exact absurd hfe (by simp)
    | ok signal =>
      cases hlab : est.labels[i]? with
      | none => intro hfe; exact absurd hfe (by simp)
      | some lab =>
        intro hfe
        have he2 : e = (lab, est.windowsOfSignal signal peaks) := by
          have := hfe
          simp only [Except.ok.injEq] at this
          exact this.symm
        subst he2
        obtain ⟨p, _, hc1, hc2, rfl⟩ := windowsOfSignal_fst_mem est signal peaks w hw
        exact window_length_of_kept signal p _ _ hB hA hc1 hc2

/-- C1 counterexample: for durations `P = QRS = T = 1/2 s` at `sr = 1`, the
three segment lengths are `int(0.5) = 0`, so `P_len + QRS_len + T_len = 0`,
yet `get_real_ECGs` keeps the window `[0:1)` of length 1 for the peak at
sample 1 of a 3-sample channel: a kept window whose length differs from
`P_len + QRS_len + T_len`. -/
theorem c1_counterexample :
    (ECGestimator.init ⟨1, [[0, 0, 0]], ["A"], 1⟩ (1/2) (1/2) (1/2) 1 ["A"]).get_real_ECGs
      [1] = .ok ([("A", [[0]])], [("A", [(0, 1)])]) ∧
    (ECGestimator.init ⟨1, [[0, 0, 0]], ["A"], 1⟩ (1/2) (1/2) (1/2) 1
        ["A"]).P_len_samples +
      (ECGestimator.init ⟨1, [[0, 0, 0]], ["A"], 1⟩ (1/2) (1/2) (1/2) 1
        ["A"]).QRS_len_samples +
      (ECGestimator.init ⟨1, [[0, 0, 0]], ["A"], 1⟩ (1/2) (1/2) (1/2) 1
        ["A"]).T_len_samples = 0 := by
  constructor
  · norm_num [ECGestimator.get_real_ECGs, mapME,
      StochasticProcess.get_realization_by_index, ECGestimator.windowsOfSignal,
      ECGestimator.init, pySlice, pyIdx, pyInt, List.range_succ, List.filter,
      show Int.toNat 0 = 0 from rfl, show Int.toNat 1 = 1 from rfl]
  · norm_num [ECGestimator.init, pyInt]

/-- C1 (amended): every window kept by `get_real_ECGs` has the same length
`⌈before⌉ + ⌊after⌋` (with `before = (P + QRS/2)·sr`, `after = (T + QRS/2)·sr`
nonnegative), and this equals `P_len + QRS_len + T_len` whenever the three
products `duration × sr` are integers — but not for arbitrary durations and
sample rates. -/
theorem c1_window_length_amended (sp : StochasticProcess)
    (P_d QRS_d T_d sr : ℚ) (labels : List String) (peaks : List ℤ)
    (ecgs : List (String × List (List ℚ))) (poss : List (String × List (ℤ × ℤ)))
    (hb : 0 ≤ (P_d + QRS_d / 2) * sr) (ha : 0 ≤ (T_d + QRS_d / 2) * sr)
    (hok : (ECGestimator.init sp P_d QRS_d T_d sr labels).get_real_ECGs peaks
      = .ok (ecgs, poss)) :
    (∀ entry ∈ ecgs, ∀ w ∈ entry.2,
      (w.length : ℤ) = ⌈(P_d + QRS_d / 2) * sr⌉ + ⌊(T_d + QRS_d / 2) * sr⌋) ∧
    (∀ a b c : ℤ, P_d * sr = (a : ℚ) → QRS_d * sr = (b : ℚ) → T_d * sr = (c : ℚ) →
      ⌈(P_d + QRS_d / 2) * sr⌉ + ⌊(T_d + QRS_d / 2) * sr⌋ =
        (ECGestimator.init sp P_d QRS_d T_d sr labels).P_len_samples +
        (ECGestimator.init sp P_d QRS_d T_d sr labels).QRS_len_samples +
        (ECGestimator.init sp P_d QRS_d T_d sr labels).T_len_samples) := by
  constructor
  · exact get_real_ECGs_window_length _ peaks ecgs poss hb ha hok
  · intro a b c hA hB hC
    have hbefore : (P_d + QRS_d / 2) * sr = (a : ℚ) + (b : ℚ) / 2 := by
      rw [show (P_d + QRS_d / 2) * sr = P_d * sr + (QRS_d * sr) / 2 from by ring,
        hA, hB]
    have hafter : (T_d + QRS_d / 2) * sr = (c : ℚ) + (b : ℚ) / 2 := by
      rw [show (T_d + QRS_d / 2) * sr = T_d * sr + (QRS_d * sr) / 2 from by ring,
        hC, hB]
    rw [hbefore, hafter]
    have h1 : ⌈(a : ℚ) + (b : ℚ) / 2⌉ = a + ⌈(b : ℚ) / 2⌉ := by
      rw [add_comm, Int.ceil_add_int]
      ring
    have h2 : ⌊(c : ℚ) + (b : ℚ) / 2⌋ = c + ⌊(b : ℚ) / 2⌋ := Int.floor_int_add c _
    have hPl : (ECGestimator.init sp P_d QRS_d T_d sr labels).P_len_samples = a := by
      show pyInt (P_d * sr) = a
      rw [hA, pyInt_intCast]
    have hQl : (ECGestimator.init sp P_d QRS_d T_d sr labels).QRS_len_samples = b := by
      show pyInt (QRS_d * sr) = b
      rw [hB, pyInt_intCast]
    have hTl : (ECGestimator.init sp P_d QRS_d T_d sr labels).T_len_samples = c := by
      show pyInt (T_d * sr) = c
      rw [hC, pyInt_intCast]
    rw [h1, h2, hPl, hQl, hTl]
    have := ceil_add_floor_half b
    omega

/-- C1 witness: the amended theorem applied to the half-second-durations
estimator of the counterexample, whose kept window indeed has length
`⌈3/4⌉ + ⌊3/4⌋ = 1`. -/
theorem c1_window_length_amended_witness :
    ((0 : ℚ) ≤ ((1:ℚ)/2 + (1/2) / 2) * 1 ∧
      (ECGestimator.init ⟨1, [[0, 0, 0]], ["A"], 1⟩ (1/2) (1/2) (1/2) 1
        ["A"]).get_real_ECGs [1] = .ok ([("A", [[0]])], [("A", [(0, 1)])])) ∧
    (∀ entry ∈ [("A", [[(0 : ℚ)]])], ∀ w ∈ entry.2,
      (w.length : ℤ) = ⌈((1:ℚ)/2 + (1/2) / 2) * 1⌉ + ⌊((1:ℚ)/2 + (1/2) / 2) * 1⌋) := by
  have hb : (0 : ℚ) ≤ ((1:ℚ)/2 + (1/2) / 2) * 1 := by norm_num
  have hok : (ECGestimator.init ⟨1, [[0, 0, 0]], ["A"], 1⟩ (1/2) (1/2) (1/2) 1
      ["A"]).get_real_ECGs [1] = .ok ([("A", [[0]])], [("A", [(0, 1)])]) := by
    norm_num [ECGestimator.get_real_ECGs, mapME,
      StochasticProcess.get_realization_by_index, ECGestimator.windowsOfSignal,
      ECGestimator.init, pySlice, pyIdx, pyInt, List.range_succ, List.filter,
      show Int.toNat 0 = 0 from rfl, show Int.toNat 1 = 1 from rfl]
  exact ⟨⟨hb, hok⟩,
    (c1_window_length_amended ⟨1, [[0, 0, 0]], ["A"], 1⟩ (1/2) (1/2) (1/2) 1 ["A"]
      [1] [("A", [[0]])] [("A", [(0, 1)])] hb hb hok).1⟩

/-- C2 counterexample: with `before = after = 2` (durations `P = T = 1 s`,
`QRS = 2 s` at `sr = 1`) and a 5-sample channel, the peak at sample 2
satisfies the claim's keep-condition `p - before ≥ 0 ∧ p + after < len`
(`2 - 2 = 0` and `2 + 2 < 5`), yet its window is not kept: the code's
condition is the strict `p - before > 0`, so the channel's kept-window list
comes back empty. -/
theorem c2_counterexample :
    (ECGestimator.init ⟨1, [[0, 0, 0, 0, 0]], ["A"], 1⟩ 1 2 1 1 ["A"]).get_real_ECGs
      [2] = .ok ([("A", [])], [("A", [])]) ∧
    (0 : ℚ) ≤ (2 : ℚ) -
      (ECGestimator.init ⟨1, [[0, 0, 0, 0, 0]], ["A"], 1⟩ 1 2 1 1
        ["A"]).samples_before_QRS ∧
    (2 : ℚ) +
      (ECGestimator.init ⟨1, [[0, 0, 0, 0, 0]], ["A"], 1⟩ 1 2 1 1
        ["A"]).samples_after_QRS < 5 := by
  refine ⟨?_, by norm_num [ECGestimator.init], by norm_num [ECGestimator.init]⟩
  norm_num [ECGestimator.get_real_ECGs, mapME,
    StochasticProcess.get_realization_by_index, ECGestimator.windowsOfSignal,
    ECGestimator.init, List.range_succ, List.filter]

/-- C2 (amended): `get_real_ECGs` returns normally, every channel below
`num_realizations` is retained in iteration order with its label (an empty
kept-window list is kept as an entry, not an error), and channel `i` keeps the
window and bounds of peak `p` exactly when `p - before > 0` (strict — a peak
with `p - before = 0` is silently excluded) and `p + after < len(channel)`. -/
theorem c2_extract_windows_amended (est : ECGestimator) (peaks : List ℤ)
    (hn : est.stochastic_process.realizations.length
      = est.stochastic_process.num_realizations)
    (hl : est.stochastic_process.num_realizations ≤ est.labels.length) :
    ∃ ecgs poss,
      est.get_real_ECGs peaks = .ok (ecgs, poss) ∧
      ecgs.length = est.stochastic_process.num_realizations ∧
      poss.length = est.stochastic_process.num_realizations ∧
      ∀ i, i < est.stochastic_process.num_realizations →
        ecgs.getD i ("", []) =
          (est.labels.getD i "",
            ((peaks.filter fun (p : ℤ) =>
              decide (est.samples_before_QRS < (p : ℚ)) &&
              decide ((p : ℚ) + est.samples_after_QRS <
                (((est.stochastic_process.realizations.getD i []).length : ℕ) : ℚ))).map
              fun (p : ℤ) =>
                pySlice (est.stochastic_process.realizations.getD i [])
                  (pyInt ((p : ℚ) - est.samples_before_QRS))
                  (pyInt ((p : ℚ) + est.samples_after_QRS)))) ∧
        poss.getD i ("", []) =
          (est.labels.getD i "",
            ((peaks.filter fun (p : ℤ) =>
              decide (est.samples_before_QRS < (p : ℚ)) &&
              decide ((p : ℚ) + est.samples_after_QRS <
                (((est.stochastic_process.realizations.getD i []).length : ℕ) : ℚ))).map
              fun (p : ℤ) =>
                (pyInt ((p : ℚ) - est.samples_before_QRS),
                 pyInt ((p : ℚ) + est.samples_after_QRS)))) := by
  have hf : ∀ i ∈ List.range est.stochastic_process.num_realizations,
      (match est.stochastic_process.get_realization_by_index i with
       | .error e => .error e
       | .ok signal =>
         match est.labels[i]? with
         | some realization => .ok (realization, est.windowsOfSignal signal peaks)
         | none => Except.error PyError.indexError) =
      Except.ok (est.labels.getD i "",
        est.windowsOfSignal (est.stochastic_process.realizations.getD i []) peaks) := by
    intro i hi
    have hi' : i < est.stochastic_process.num_realizations := List.mem_range.mp hi
    have h1 : est.stochastic_process.get_realization_by_index i =
        .ok (est.stochastic_process.realizations.getD i []) := by
      unfold StochasticProcess.get_realization_by_index
      rw [if_pos hi']
      rw [List.getElem?_eq_getElem (by omega)]
      rw [List.getD_eq_getElem _ _ (by omega)]
    have h2 : est.labels[i]? = some (est.labels.getD i "") := by
      rw [List.getElem?_eq_getElem (by omega)]
      rw [List.getD_eq_getElem _ _ (by omega)]
    rw [h1, h2]
  refine ⟨(List.range est.stochastic_process.num_realizations).map
      (fun i => (est.labels.getD i "",
        (est.windowsOfSignal (est.stochastic_process.realizations.getD i []) peaks).1)),
    (List.range est.stochastic_process.num_realizations).map
      (fun i => (est.labels.getD i "",
        (est.windowsOfSignal (est.stochastic_process.realizations.getD i []) peaks).2)),
    ?_, ?_, ?_, ?_⟩
  · unfold ECGestimator.get_real_ECGs
    rw [mapME_eq_ok _
      (fun i => (est.labels.getD i "",
        est.windowsOfSignal (est.stochastic_process.realizations.getD i []) peaks))
      _ hf]
    dsimp only
    rw [List.map_map, List.map_map]
    rfl
  · simp
  · simp
  · intro i hi
    constructor
    · rw [mapRange_getD _ _ _ _ hi]
      rfl
    · rw [mapRange_getD _ _ _ _ hi]
      rfl

/-- C2 witness: the amended theorem applied to the boundary-peak setup of the
counterexample (one 5-sample channel, peak at sample 2, spans 2 and 2). -/
theorem c2_extract_windows_amended_witness :
    ((ECGestimator.init ⟨1, [[0, 0, 0, 0, 0]], ["A"], 1⟩ 1 2 1 1
        ["A"]).stochastic_process.realizations.length
      = (ECGestimator.init ⟨1, [[0, 0, 0, 0, 0]], ["A"], 1⟩ 1 2 1 1
        ["A"]).stochastic_process.num_realizations ∧
      (ECGestimator.init ⟨1, [[0, 0, 0, 0, 0]], ["A"], 1⟩ 1 2 1 1
        ["A"]).stochastic_process.num_realizations ≤
        (ECGestimator.init ⟨1, [[0, 0, 0, 0, 0]], ["A"], 1⟩ 1 2 1 1
          ["A"]).labels.length) ∧
    ∃ ecgs poss,
      (ECGestimator.init ⟨1, [[0, 0, 0, 0, 0]], ["A"], 1⟩ 1 2 1 1
        ["A"]).get_real_ECGs [2] = .ok (ecgs, poss) ∧
      ecgs.length = (ECGestimator.init ⟨1, [[0, 0, 0, 0, 0]], ["A"], 1⟩ 1 2 1 1
        ["A"]).stochastic_process.num_realizations := by
  have hn : (ECGestimator.init ⟨1, [[0, 0, 0, 0, 0]], ["A"], 1⟩ 1 2 1 1
      ["A"]).stochastic_process.realizations.length
      = (ECGestimator.init ⟨1, [[0, 0, 0, 0, 0]], ["A"], 1⟩ 1 2 1 1
        ["A"]).stochastic_process.num_realizations := by norm_num [ECGestimator.init]
  have hl : (ECGestimator.init ⟨1, [[0, 0, 0, 0, 0]], ["A"], 1⟩ 1 2 1 1
      ["A"]).stochastic_process.num_realizations ≤
      (ECGestimator.init ⟨1, [[0, 0, 0, 0, 0]], ["A"], 1⟩ 1 2 1 1
        ["A"]).labels.length := by norm_num [ECGestimator.init]
  obtain ⟨ecgs, poss, hok, hlen, _, _⟩ :=
    c2_extract_windows_amended
      (ECGestimator.init ⟨1, [[0, 0, 0, 0, 0]], ["A"], 1⟩ 1 2 1 1 ["A"]) [2] hn hl
  exact ⟨⟨hn, hl⟩, ecgs, poss, hok, hlen⟩

/-! Helper lemmas for `np.argmax` and the template construction. -/

theorem npArgmaxAux_spec (xs : List ℚ) :
    ∀ (k i bi : ℕ) (bv : ℚ), xs.length = i + k → bi < i → bv = xs.getD bi 0 →
      (∀ j, j < i → xs.getD j 0 ≤ bv) → (∀ j, j < bi → xs.getD j 0 < bv) →
      npArgmaxAux (xs.drop i) i bi bv < xs.length ∧
      (∀ j, j < xs.length →
        xs.getD j 0 ≤ xs.getD (npArgmaxAux (xs.drop i) i bi bv) 0) ∧
      (∀ j, j < npArgmaxAux (xs.drop i) i bi bv →
        xs.getD j 0 < xs.getD (npArgmaxAux (xs.drop i) i bi bv) 0) := by
  intro k
  induction k with
  | zero =>
    intro i bi bv hlen hbi hbv hle hlt
    have hdrop : xs.drop i = [] := by
      rw [List.drop_eq_nil_iff]
      omega
    rw [hdrop]
    show npArgmaxAux [] i bi bv < xs.length ∧ _
    unfold npArgmaxAux
    refine ⟨by omega, fun j hj => ?_, fun j hj => ?_⟩
    · rw [← hbv]
      exact hle j (by omega)
    · rw [← hbv]
      exact hlt j hj
  | succ k ih =>
    intro i bi bv hlen hbi hbv hle hlt
    have hi : i < xs.length := by omega
    rw [List.drop_eq_getElem_cons hi]
    rw [npArgmaxAux]
    have hx : xs[i] = xs.getD i 0 := (List.getD_eq_getElem xs 0 hi).symm
    by_cases hc : bv < xs[i]
    · rw [if_pos hc]
      have h := ih (i + 1) i xs[i] (by omega) (by omega) hx
        (fun j hj => by
          rcases Nat.lt_succ_iff_lt_or_eq.mp hj with h' | h'
          · exact le_of_lt (lt_of_le_of_lt (hle j h') hc)
          · subst h'
            rw [hx])
        (fun j hj => lt_of_le_of_lt (hle j hj) hc)
      exact h
    · rw [if_neg hc]
      have h := ih (i + 1) bi bv (by omega) (by omega) hbv
        (fun j hj => by
          rcases Nat.lt_succ_iff_lt_or_eq.mp hj with h' | h'
          · exact hle j h'
          · subst h'
            rw [← hx]
            exact le_of_not_lt hc)
        hlt
      exact h

theorem npArgmax_spec (xs : List ℚ) (hne : xs ≠ []) :
    npArgmax xs < xs.length ∧
    (∀ j, j < xs.length → xs.getD j 0 ≤ xs.getD (npArgmax xs) 0) ∧
    (∀ j, j < npArgmax xs → xs.getD j 0 < xs.getD (npArgmax xs) 0) := by
  have hlen : 1 ≤ xs.length := List.length_pos.mpr hne
  have hhead : xs.headD 0 = xs.getD 0 0 := by
    cases xs with
    | nil => simp at hne
    | cons a l => rfl
  have h := npArgmaxAux_spec xs (xs.length - 1) 1 0 (xs.headD 0) (by omega) (by omega)
    hhead
    (fun j hj => by
      have : j = 0 := by omega
      subst this
      rw [hhead])
    (fun j hj => by omega)
  unfold npArgmax
  rw [← List.drop_one]
  exact h

theorem npMeanAxis0_eq_none_iff (ws : List (List ℚ)) :
    npMeanAxis0 ws = none ↔ ws = [] := by
  cases ws <;> simp [npMeanAxis0]

theorem template_windows_length (d : QRSdetector) (e : List ℚ)
    (htd : 0 ≤ d.template_duration) :
    ∀ w ∈ d.template_windows e,
      w.length = (2 * (Int.fdiv (pyInt (d.template_duration * (d.sr : ℚ))) 2)).toNat := by
  intro w hw
  have hq0 : 0 ≤ pyInt (d.template_duration * (d.sr : ℚ)) := by
    unfold pyInt
    have hpr : 0 ≤ d.template_duration * (d.sr : ℚ) :=
      mul_nonneg htd (by positivity)
    rw [if_pos hpr]
    exact Int.floor_nonneg.mpr hpr
  have hh0 : 0 ≤ Int.fdiv (pyInt (d.template_duration * (d.sr : ℚ))) 2 :=
    Int.fdiv_nonneg hq0 (by omega)
  revert hw
  unfold QRSdetector.template_windows
  intro hw
  obtain ⟨i, _, hfi⟩ := List.mem_filterMap.mp hw
  dsimp only at hfi
  by_cases hcond : 0 ≤ ((i * d.sr : ℕ) : ℤ) +
      npArgmax (((e.drop (i * d.sr)).take d.sr).map fun v => |v|) -
        Int.fdiv (pyInt (d.template_duration * (d.sr : ℚ))) 2 ∧
      ((i * d.sr : ℕ) : ℤ) + npArgmax (((e.drop (i * d.sr)).take d.sr).map fun v => |v|) +
        Int.fdiv (pyInt (d.template_duration * (d.sr : ℚ))) 2 < (e.length : ℤ)
  · rw [if_pos hcond] at hfi
    have hw' := Option.some.injEq _ _ ▸ hfi
    have hlen := pySlice_length e
      (((i * d.sr : ℕ) : ℤ) + npArgmax (((e.drop (i * d.sr)).take d.sr).map fun v => |v|) -
        Int.fdiv (pyInt (d.template_duration * (d.sr : ℚ))) 2)
      (((i * d.sr : ℕ) : ℤ) + npArgmax (((e.drop (i * d.sr)).take d.sr).map fun v => |v|) +
        Int.fdiv (pyInt (d.template_duration * (d.sr : ℚ))) 2)
      hcond.1 (by omega) (by omega)
    have : w = pySlice e
        (((i * d.sr : ℕ) : ℤ) + npArgmax (((e.drop (i * d.sr)).take d.sr).map fun v => |v|) -
          Int.fdiv (pyInt (d.template_duration * (d.sr : ℚ))) 2)
        (((i * d.sr : ℕ) : ℤ) + npArgmax (((e.drop (i * d.sr)).take d.sr).map fun v => |v|) +
          Int.fdiv (pyInt (d.template_duration * (d.sr : ℚ))) 2) := by
      exact (Option.some.inj hfi).symm
    rw [this]
    omega
  · rw [if_neg hcond] at hfi
    exact absurd hfi (by simp)

/-- C7: `create_qrs_template` partitions the enhanced signal into
`len(enhanced) // sr` non-overlapping one-second windows of exactly `sr`
samples, anchors each at the first sample of maximal absolute amplitude,
keeps only extractions `[anchor - half_qrs, anchor + half_qrs)` lying fully
inside the signal (each of length `2·half_qrs`), returns their sample-wise
mean, and raises an extraction error if and only if zero windows survive. -/
theorem c7_template_construction (d : QRSdetector) (e : List ℚ)
    (hsr : 1 ≤ d.sr) (htd : 0 ≤ d.template_duration) :
    (isErr (d.create_qrs_template e) = true ↔ d.template_windows e = []) ∧
    (∀ t, d.create_qrs_template e = .ok t →
      t = meanSpec (d.template_windows e)
        (2 * (Int.fdiv (pyInt (d.template_duration * (d.sr : ℚ))) 2)).toNat) ∧
    (∀ w ∈ d.template_windows e,
      w.length = (2 * (Int.fdiv (pyInt (d.template_duration * (d.sr : ℚ))) 2)).toNat) ∧
    (∀ i, i < e.length / d.sr →
      ((e.drop (i * d.sr)).take d.sr).length = d.sr ∧
      npArgmax (((e.drop (i * d.sr)).take d.sr).map fun v => |v|) < d.sr ∧
      (∀ j, j < d.sr →
        |((e.drop (i * d.sr)).take d.sr).getD j 0| ≤
          |((e.drop (i * d.sr)).take d.sr).getD
            (npArgmax (((e.drop (i * d.sr)).take d.sr).map fun v => |v|)) 0|) ∧
      (∀ j, j < npArgmax (((e.drop (i * d.sr)).take d.sr).map fun v => |v|) →
        |((e.drop (i * d.sr)).take d.sr).getD j 0| <
          |((e.drop (i * d.sr)).take d.sr).getD
            (npArgmax (((e.drop (i * d.sr)).take d.sr).map fun v => |v|)) 0|)) := by
  have hsr0 : ¬(d.sr = 0) := by omega
  refine ⟨?_, ?_, template_windows_length d e htd, ?_⟩
  · unfold QRSdetector.create_qrs_template
    rw [if_neg hsr0]
    cases htw : npMeanAxis0 (d.template_windows e) with
    | none => simp [isErr, (npMeanAxis0_eq_none_iff _).mp htw]
    | some t =>
      have hne : d.template_windows e ≠ [] := by
        intro hc
        rw [hc] at htw
        simp [npMeanAxis0] at htw
      simp [isErr, hne]
  · intro t hok
    revert hok
    unfold QRSdetector.create_qrs_template
    rw [if_neg hsr0]
    cases htw : npMeanAxis0 (d.template_windows e) with
    | none => intro hok; exact absurd hok (by simp)
    | some t' =>
      intro hok
      have ht' : t' = t := by simpa using hok
      subst ht'
      have hne : d.template_windows e ≠ [] := by
        intro hc
        rw [hc] at htw
        simp [npMeanAxis0] at htw
      have hms := npMeanAxis0_eq_meanSpec (d.template_windows e) _ hne
        (template_windows_length d e htd)
      rw [htw] at hms
      exact Option.some.inj hms
  · intro i hi
    have hseg_le : i * d.sr + d.sr ≤ e.length := by
      have h1 : (i + 1) * d.sr ≤ (e.length / d.sr) * d.sr :=
        Nat.mul_le_mul_right _ (by omega)
      have h2 : (e.length / d.sr) * d.sr ≤ e.length := Nat.div_mul_le_self _ _
      have h3 : (i + 1) * d.sr = i * d.sr + d.sr := by rw [Nat.succ_mul]
      omega
    have hlen : ((e.drop (i * d.sr)).take d.sr).length = d.sr := by
      rw [List.length_take, List.length_drop]
      omega
    have hmlen : ((((e.drop (i * d.sr)).take d.sr).map fun v => |v|)).length = d.sr := by
      rw [List.length_map, hlen]
    have hne : (((e.drop (i * d.sr)).take d.sr).map fun v => |v|) ≠ [] := by
      intro hc
      have := congrArg List.length hc
      rw [hmlen] at this
      simp at this
      omega
    have hspec := npArgmax_spec _ hne
    refine ⟨hlen, ?_, fun j hj => ?_, fun j hj => ?_⟩
    · have h := hspec.1
      rw [hmlen] at h
      exact h
    · have h := hspec.2.1 j (by omega)
      rwa [getD_map_abs, getD_map_abs] at h
    · have h := hspec.2.2 j hj
      rwa [getD_map_abs, getD_map_abs] at h

/-- C7 witness: the theorem applied to a one-second template at `sr = 2` over a
6-sample enhanced signal; the second analysis window's anchor extraction is the
only survivor and its error-free mean is returned. -/
theorem c7_template_construction_witness :
    ((1 : ℕ) ≤ 2 ∧ (0 : ℚ) ≤ 1) ∧
    (isErr ((⟨⟨0, [], [], 4⟩, 1, 1/2, 2⟩ : QRSdetector).create_qrs_template
        [1, 0, 0, 5, 0, 2]) = true ↔
      (⟨⟨0, [], [], 4⟩, 1, 1/2, 2⟩ : QRSdetector).template_windows
        [1, 0, 0, 5, 0, 2] = []) := by
  exact ⟨⟨by norm_num, by norm_num⟩,
    (c7_template_construction (⟨⟨0, [], [], 4⟩, 1, 1/2, 2⟩ : QRSdetector)
      [1, 0, 0, 5, 0, 2] (by norm_num) (by norm_num)).1⟩

/-! Helper lemmas for the local-maxima scan and the distance selection. -/

theorem lmAhead_le (x : List ℚ) (v : ℚ) (imax : ℕ) (j : ℕ) (hle : j ≤ imax) :
    lmAhead x v imax j ≤ imax := by
  rw [lmAhead]
  split
  · rename_i hcond
    exact lmAhead_le x v imax (j + 1) (by omega)
  · exact hle
termination_by imax - j

theorem lmGo_sound (x : List ℚ) (imax : ℕ) :
    ∀ n i, imax - i ≤ n →
      (∀ p ∈ lmGo x imax i, i ≤ p ∧ p < imax) ∧
      (lmGo x imax i).Pairwise (· < ·) := by
  intro n
  induction n with
  | zero =>
    intro i hn
    rw [lmGo, dif_neg (by omega)]
    simp
  | succ n ih =>
    intro i hn
    by_cases hc : i < imax
    · rw [lmGo, dif_pos hc]
      have hia1 : i + 1 ≤ lmAhead x (x.getD i 0) imax (i + 1) :=
        lmAhead_ge x _ imax (i + 1)
      have hia2 : lmAhead x (x.getD i 0) imax (i + 1) ≤ imax :=
        lmAhead_le x _ imax (i + 1) (by omega)
      by_cases h1 : x.getD (i - 1) 0 < x.getD i 0
      · rw [if_pos h1]
        dsimp only
        by_cases h2 : x.getD (lmAhead x (x.getD i 0) imax (i + 1)) 0 < x.getD i 0
        · rw [if_pos h2]
          obtain ⟨ihb, ihp⟩ := ih (lmAhead x (x.getD i 0) imax (i + 1) + 1) (by omega)
          constructor
          · intro p hp
            rcases List.mem_cons.mp hp with rfl | hp'
            · omega
            · have := ihb p hp'
              omega
          · rw [List.pairwise_cons]
            refine ⟨fun p hp => ?_, ihp⟩
            have := ihb p hp
            omega
        · rw [if_neg h2]
          obtain ⟨ihb, ihp⟩ := ih (i + 1) (by omega)
          exact ⟨fun p hp => by have := ihb p hp; omega, ihp⟩
      · rw [if_neg h1]
        obtain ⟨ihb, ihp⟩ := ih (i + 1) (by omega)
        exact ⟨fun p hp => by have := ihb p hp; omega, ihp⟩
    · rw [lmGo, dif_neg hc]
      simp

theorem localMaxima_sound (x : List ℚ) :
    (∀ p ∈ localMaxima x, 1 ≤ p ∧ p + 1 < x.length) ∧
    (localMaxima x).Pairwise (· < ·) := by
  obtain ⟨hb, hp⟩ := lmGo_sound x (x.length - 1) (x.length - 1) 1 (by omega)
  refine ⟨fun p hmem => ?_, hp⟩
  have := hb p hmem
  omega

theorem clearNear_length (peaks : List ℤ) (distance : ℕ) (j : ℕ) (keep : List Bool) :
    (clearNear peaks distance j keep).length = keep.length := by
  simp [clearNear]

theorem clearNear_getD_true (peaks : List ℤ) (distance : ℕ) (j : ℕ)
    (keep : List Bool) (m : ℕ)
    (h : (clearNear peaks distance j keep).getD m false = true) :
    keep.getD m false = true := by
  by_cases hm : m < keep.length
  · rw [clearNear, mapRange_getD _ _ _ _ hm] at h
    by_cases hcond : m ≠ j ∧ (peaks.getD j 0 - peaks.getD m 0).natAbs < distance
    · rw [if_pos hcond] at h
      exact absurd h (by simp)
    · rwa [if_neg hcond] at h
  · rw [List.getD_eq_default _ _ (by rw [clearNear_length]; omega)] at h
    exact absurd h (by simp)

theorem clearNear_getD_false (peaks : List ℤ) (distance : ℕ) (j : ℕ)
    (keep : List Bool) (m : ℕ) (hm : m < keep.length) (hmj : m ≠ j)
    (hclose : (peaks.getD j 0 - peaks.getD m 0).natAbs < distance) :
    (clearNear peaks distance j keep).getD m false = false := by
  rw [clearNear, mapRange_getD _ _ _ _ hm, if_pos ⟨hmj, hclose⟩]

theorem sbpdGo_mono (peaks : List ℤ) (distance : ℕ) :
    ∀ (ord : List ℕ) (keep : List Bool) (m : ℕ),
      (sbpdGo peaks distance ord keep).getD m false = true →
      keep.getD m false = true := by
  intro ord
  induction ord with
  | nil => intro keep m h; exact h
  | cons j rest ih =>
    intro keep m h
    rw [sbpdGo] at h
    by_cases hj : keep.getD j false = true
    · rw [if_pos hj] at h
      exact clearNear_getD_true peaks distance j keep m (ih _ m h)
    · rw [if_neg hj] at h
      exact ih _ m h

theorem sbpdGo_length (peaks : List ℤ) (distance : ℕ) :
    ∀ (ord : List ℕ) (keep : List Bool),
      (sbpdGo peaks distance ord keep).length = keep.length := by
  intro ord
  induction ord with
  | nil => intro keep; rfl
  | cons j rest ih =>
    intro keep
    rw [sbpdGo]
    by_cases hj : keep.getD j false = true
    · rw [if_pos hj, ih, clearNear_length]
    · rw [if_neg hj, ih]

theorem sbpdGo_cleared (peaks : List ℤ) (distance : ℕ) :
    ∀ (ord : List ℕ) (keep : List Bool) (j k : ℕ), j ∈ ord →
      k < keep.length → k ≠ j →
      (peaks.getD j 0 - peaks.getD k 0).natAbs < distance →
      (sbpdGo peaks distance ord keep).getD j false = true →
      (sbpdGo peaks distance ord keep).getD k false = false := by
  intro ord
  induction ord with
  | nil => intro keep j k hj; exact absurd hj (by simp)
  | cons j' rest ih =>
    intro keep j k hj hk hkj hclose hfin
    rw [sbpdGo] at hfin ⊢
    by_cases hj' : keep.getD j' false = true
    · rw [if_pos hj'] at hfin ⊢
      rcases eq_or_ne j j' with rfl | hne
      · cases hfk : (sbpdGo peaks distance rest (clearNear peaks distance j keep)).getD
            k false with
        | false => rfl
        | true =>
          have hck := sbpdGo_mono peaks distance rest _ k hfk
          rw [clearNear_getD_false peaks distance j keep k hk hkj hclose] at hck
          exact absurd hck (by simp)
      · have hjrest : j ∈ rest := by
          rcases List.mem_cons.mp hj with h | h
          · exact absurd h hne
          · exact h
        exact ih _ j k hjrest (by rw [clearNear_length]; omega) hkj hclose hfin
    · rw [if_neg hj'] at hfin ⊢
      rcases eq_or_ne j j' with rfl | hne
      · have := sbpdGo_mono peaks distance rest keep j hfin
        exact absurd this hj'
      · have hjrest : j ∈ rest := by
          rcases List.mem_cons.mp hj with h | h
          · exact absurd h hne
          · exact h
        exact ih _ j k hjrest hk hkj hclose hfin

theorem clearNear_getD_keep (peaks : List ℤ) (distance : ℕ) (j : ℕ)
    (keep : List Bool) (m : ℕ)
    (h : m = j ∨ ¬ (peaks.getD j 0 - peaks.getD m 0).natAbs < distance) :
    (clearNear peaks distance j keep).getD m false = keep.getD m false := by
  by_cases hm : m < keep.length
  · rw [clearNear, mapRange_getD _ _ _ _ hm, if_neg]
    rintro ⟨hmj, hclose⟩
    rcases h with rfl | hfar
    · exact hmj rfl
    · exact hfar hclose
  · rw [List.getD_eq_default _ _ (by rw [clearNear_length]; omega),
      List.getD_eq_default _ _ (by omega)]

theorem sbpdGo_keeps (peaks : List ℤ) (distance : ℕ) :
    ∀ (ord : List ℕ) (keep : List Bool) (j : ℕ),
      keep.getD j false = true →
      (∀ m, m ≠ j → (peaks.getD j 0 - peaks.getD m 0).natAbs < distance →
        keep.getD m false = false) →
      (sbpdGo peaks distance ord keep).getD j false = true := by
  intro ord
  induction ord with
  | nil => intro keep j hj _; exact hj
  | cons j' rest ih =>
    intro keep j hj hcl
    rw [sbpdGo]
    by_cases hj' : keep.getD j' false = true
    · rw [if_pos hj']
      rcases eq_or_ne j' j with rfl | hne
      · refine ih _ j' ?_ ?_
        · rw [clearNear_getD_keep peaks distance j' keep j' (Or.inl rfl)]
          exact hj
        · intro m hmj hclose
          by_cases hml : m < keep.length
          · exact clearNear_getD_false peaks distance j' keep m hml hmj hclose
          · exact List.getD_eq_default _ _ (by rw [clearNear_length]; omega)
      · have hfar : ¬ (peaks.getD j 0 - peaks.getD j' 0).natAbs < distance := by
          intro hclose
          have hcontra := hcl j' hne hclose
          rw [hcontra] at hj'
          exact absurd hj' (by simp)
        have hfar' : ¬ (peaks.getD j' 0 - peaks.getD j 0).natAbs < distance := by
          omega
        refine ih _ j ?_ ?_
        · rw [clearNear_getD_keep peaks distance j' keep j (Or.inr hfar')]
          exact hj
        · intro m hmj hclose
          cases hk : (clearNear peaks distance j' keep).getD m false with
          | false => rfl
          | true =>
            have hkm := clearNear_getD_true peaks distance j' keep m hk
            rw [hcl m hmj hclose] at hkm
            exact absurd hkm (by simp)
    · rw [if_neg hj']
      exact ih _ j hj hcl

theorem sbpdGo_complete (peaks : List ℤ) (priority : List ℚ) (distance : ℕ)
    (hd : 1 ≤ distance) :
    ∀ (ord : List ℕ) (keep : List Bool),
      ord.Pairwise (fun a b => priority.getD b 0 ≤ priority.getD a 0) →
      ∀ m ∈ ord, keep.getD m false = true →
      ∃ j, (sbpdGo peaks distance ord keep).getD j false = true ∧
        (peaks.getD j 0 - peaks.getD m 0).natAbs < distance ∧
        priority.getD m 0 ≤ priority.getD j 0 := by
  intro ord
  induction ord with
  | nil => intro keep _ m hm; exact absurd hm (by simp)
  | cons j' rest ih =>
    intro keep hsort m hm hkm
    obtain ⟨hhead, htail⟩ := List.pairwise_cons.mp hsort
    rw [sbpdGo]
    by_cases hj' : keep.getD j' false = true
    · rw [if_pos hj']
      by_cases hclose : (peaks.getD j' 0 - peaks.getD m 0).natAbs < distance
      · refine ⟨j', ?_, hclose, ?_⟩
        · refine sbpdGo_keeps peaks distance rest _ j' ?_ ?_
          · rw [clearNear_getD_keep peaks distance j' keep j' (Or.inl rfl)]
            exact hj'
          · intro k hkj hck
            by_cases hkl : k < keep.length
            · exact clearNear_getD_false peaks distance j' keep k hkl hkj hck
            · exact List.getD_eq_default _ _ (by rw [clearNear_length]; omega)
        · rcases List.mem_cons.mp hm with rfl | hmr
          · exact le_refl _
          · exact hhead m hmr
      · have hmne : m ≠ j' := by
          rintro rfl
          exact hclose (by omega)
        have hmr : m ∈ rest := by
          rcases List.mem_cons.mp hm with rfl | hr
          · exact absurd rfl hmne
          · exact hr
        have hkm' : (clearNear peaks distance j' keep).getD m false = true := by
          rw [clearNear_getD_keep peaks distance j' keep m (Or.inr hclose)]
          exact hkm
        exact ih (clearNear peaks distance j' keep) htail m hmr hkm'
    · rw [if_neg hj']
      have hmne : m ≠ j' := by
        rintro rfl
        rw [hkm] at hj'
        exact hj' rfl
      have hmr : m ∈ rest := by
        rcases List.mem_cons.mp hm with rfl | hr
        · exact absurd rfl hmne
        · exact hr
      exact ih keep htail m hmr hkm

theorem insertDesc_mem (priority : List ℚ) (a : ℕ) :
    ∀ (l : List ℕ) (m : ℕ), m ∈ insertDesc priority a l ↔ m = a ∨ m ∈ l := by
  intro l
  induction l with
  | nil => intro m; simp [insertDesc]
  | cons b rest ih =>
    intro m
    rw [insertDesc]
    by_cases hc : priority.getD b 0 < priority.getD a 0
    · rw [if_pos hc]
      simp
    · rw [if_neg hc]
      constructor
      · intro h
        rcases List.mem_cons.mp h with rfl | h'
        · simp
        · rcases (ih m).mp h' with h'' | h''
          · exact Or.inl h''
          · exact Or.inr (by simp [h''])
      · intro h
        rcases h with rfl | h'
        · exact List.mem_cons_of_mem b ((ih m).mpr (Or.inl rfl))
        · rcases List.mem_cons.mp h' with rfl | h''
          · simp
          · exact List.mem_cons_of_mem b ((ih m).mpr (Or.inr h''))

theorem priorityOrder_mem (priority : List ℚ) (m : ℕ) (hm : m < priority.length) :
    m ∈ priorityOrder priority := by
  unfold priorityOrder
  have hmem : m ∈ List.range priority.length := List.mem_range.mpr hm
  revert hmem
  generalize List.range priority.length = l
  intro hmem
  induction l with
  | nil => exact absurd hmem (by simp)
  | cons b rest ih =>
    rw [List.foldr_cons]
    rcases List.mem_cons.mp hmem with rfl | h'
    · exact (insertDesc_mem priority m _ m).mpr (Or.inl rfl)
    · exact (insertDesc_mem priority b _ m).mpr (Or.inr (ih h'))

theorem insertDesc_sorted (priority : List ℚ) (a : ℕ) :
    ∀ (l : List ℕ),
      l.Pairwise (fun x y => priority.getD y 0 ≤ priority.getD x 0) →
      (insertDesc priority a l).Pairwise
        (fun x y => priority.getD y 0 ≤ priority.getD x 0) := by
  intro l
  induction l with
  | nil => intro _; simp [insertDesc]
  | cons b rest ih =>
    intro hl
    obtain ⟨hb, hrest⟩ := List.pairwise_cons.mp hl
    rw [insertDesc]
    by_cases hc : priority.getD b 0 < priority.getD a 0
    · rw [if_pos hc]
      refine List.pairwise_cons.mpr ⟨?_, hl⟩
      intro y hy
      rcases List.mem_cons.mp hy with rfl | hyr
      · exact le_of_lt hc
      · exact le_trans (hb y hyr) (le_of_lt hc)
    · rw [if_neg hc]
      refine List.pairwise_cons.mpr ⟨?_, ih hrest⟩
      intro y hy
      rcases (insertDesc_mem priority a rest y).mp hy with rfl | hyr
      · exact le_of_not_lt hc
      · exact hb y hyr

theorem priorityOrder_sorted (priority : List ℚ) :
    (priorityOrder priority).Pairwise
      (fun x y => priority.getD y 0 ≤ priority.getD x 0) := by
  unfold priorityOrder
  generalize List.range priority.length = l
  induction l with
  | nil => exact List.Pairwise.nil
  | cons b rest ih =>
    rw [List.foldr_cons]
    exact insertDesc_sorted priority b _ ih

theorem sbpd_sound (peaks : List ℤ) (priority : List ℚ) (distance : ℕ)
    (hlen : priority.length = peaks.length) (hsorted : peaks.Pairwise (· < ·)) :
    (selectByPeakDistance peaks priority distance).Pairwise
      (fun a b => a < b ∧ a + (distance : ℤ) ≤ b) ∧
    ∀ q ∈ selectByPeakDistance peaks priority distance, q ∈ peaks := by
  unfold selectByPeakDistance
  dsimp only
  constructor
  · rw [List.pairwise_map]
    have hbase : (List.Pairwise (· < ·)
        ((List.range peaks.length).filter fun m =>
          (sbpdGo peaks distance (priorityOrder priority)
            (List.replicate peaks.length true)).getD m false)) :=
      List.Pairwise.filter _ (List.pairwise_lt_range peaks.length)
    refine List.Pairwise.imp_of_mem ?_ hbase
    intro a b ha hb hab
    have hka := List.mem_filter.mp ha
    have hkb := List.mem_filter.mp hb
    have ha' : a < peaks.length := List.mem_range.mp hka.1
    have hb' : b < peaks.length := List.mem_range.mp hkb.1
    have hval : peaks.getD a 0 < peaks.getD b 0 := by
      rw [List.getD_eq_getElem _ _ ha', List.getD_eq_getElem _ _ hb']
      exact List.pairwise_iff_getElem.mp hsorted a b ha' hb' hab
    refine ⟨hval, ?_⟩
    by_cases hfar : (peaks.getD b 0 - peaks.getD a 0).natAbs < distance
    · exfalso
      have hcl := sbpdGo_cleared peaks distance (priorityOrder priority)
        (List.replicate peaks.length true) b a
        (priorityOrder_mem priority b (by omega))
        (by rw [List.length_replicate]; omega) (by omega) hfar
        (by simpa using hkb.2)
      rw [hcl] at hka
      simp at hka
    · omega
  · intro q hq
    obtain ⟨m, hmf, rfl⟩ := List.mem_map.mp hq
    have hm : m < peaks.length := List.mem_range.mp (List.mem_filter.mp hmf).1
    exact getD_mem peaks m 0 hm

theorem scipyFindPeaks_sound (x : List ℚ) (h : ℚ) (distance : ℕ) (pks : List ℕ)
    (hok : scipyFindPeaks x h distance = .ok pks) :
    pks.Pairwise (fun a b => a < b ∧ a + distance ≤ b) ∧
    ∀ p ∈ pks, p ∈ localMaxima x ∧ h ≤ x.getD p 0 := by
  unfold scipyFindPeaks at hok
  by_cases hd : distance < 1
  · rw [if_pos hd] at hok
    exact absurd hok (by simp)
  · rw [if_neg hd] at hok
    dsimp only at hok
    have hpks : pks = (selectByPeakDistance
        (((localMaxima x).filter fun p => decide (h ≤ x.getD p 0)).map fun (p : ℕ) => (p : ℤ))
        (((localMaxima x).filter fun p => decide (h ≤ x.getD p 0)).map fun (p : ℕ) => x.getD p 0)
        distance).map Int.toNat := by
      have := hok
      simp only [Except.ok.injEq] at this
      exact this.symm
    have hsorted : (((localMaxima x).filter fun p =>
        decide (h ≤ x.getD p 0)).map fun (p : ℕ) => (p : ℤ)).Pairwise (· < ·) := by
      rw [List.pairwise_map]
      refine List.Pairwise.imp ?_
        (List.Pairwise.filter _ (localMaxima_sound x).2)
      intro a b hab
      exact_mod_cast hab
    obtain ⟨hpw, hmem⟩ := sbpd_sound
      (((localMaxima x).filter fun p => decide (h ≤ x.getD p 0)).map fun (p : ℕ) => (p : ℤ))
      (((localMaxima x).filter fun p => decide (h ≤ x.getD p 0)).map fun (p : ℕ) => x.getD p 0)
      distance (by rw [List.length_map, List.length_map]) hsorted
    subst hpks
    constructor
    · rw [List.pairwise_map]
      refine List.Pairwise.imp_of_mem ?_ hpw
      intro a b ha hb hab
      obtain ⟨pa, _, rfl⟩ := List.mem_map.mp (hmem a ha)
      obtain ⟨pb, _, rfl⟩ := List.mem_map.mp (hmem b hb)
      rw [Int.toNat_ofNat pa]
      constructor
      · exact_mod_cast hab.1
      · exact_mod_cast hab.2
    · intro p hp
      obtain ⟨a, hak, rfl⟩ := List.mem_map.mp hp
      obtain ⟨pa, hpaf, rfl⟩ := List.mem_map.mp (hmem a hak)
      have hf := List.mem_filter.mp hpaf
      rw [Int.toNat_ofNat pa]
      exact ⟨hf.1, by simpa using hf.2⟩

theorem sbpd_complete (peaks : List ℤ) (priority : List ℚ) (distance : ℕ)
    (hd : 1 ≤ distance) (hlen : priority.length = peaks.length)
    (m : ℕ) (hm : m < peaks.length) :
    ∃ j, j < peaks.length ∧
      peaks.getD j 0 ∈ selectByPeakDistance peaks priority distance ∧
      (peaks.getD j 0 - peaks.getD m 0).natAbs < distance ∧
      priority.getD m 0 ≤ priority.getD j 0 := by
  have hmo : m ∈ priorityOrder priority := priorityOrder_mem priority m (by omega)
  have hkm : (List.replicate peaks.length true).getD m false = true := by
    rw [List.getD_eq_getElem _ _ (by rw [List.length_replicate]; omega)]
    simp
  obtain ⟨j, hjk, hjc, hjp⟩ := sbpdGo_complete peaks priority distance hd
    (priorityOrder priority) (List.replicate peaks.length true)
    (priorityOrder_sorted priority) m hmo hkm
  have hjlen : j < peaks.length := by
    by_contra hge
    rw [List.getD_eq_default _ _
      (by rw [sbpdGo_length, List.length_replicate]; omega)] at hjk
    exact absurd hjk (by simp)
  refine ⟨j, hjlen, ?_, hjc, hjp⟩
  unfold selectByPeakDistance
  dsimp only
  refine List.mem_map.mpr ⟨j, ?_, rfl⟩
  refine List.mem_filter.mpr ⟨List.mem_range.mpr hjlen, ?_⟩
  simpa using hjk

theorem scipyFindPeaks_complete (x : List ℚ) (h : ℚ) (distance : ℕ)
    (pks : List ℕ) (hok : scipyFindPeaks x h distance = .ok pks)
    (p : ℕ) (hp : p ∈ localMaxima x) (hh : h ≤ x.getD p 0) :
    ∃ s ∈ pks, ((s : ℤ) - (p : ℤ)).natAbs < distance ∧ x.getD p 0 ≤ x.getD s 0 := by
  unfold scipyFindPeaks at hok
  by_cases hdlt : distance < 1
  · rw [if_pos hdlt] at hok
    exact absurd hok (by simp)
  · rw [if_neg hdlt] at hok
    dsimp only at hok
    have hd : 1 ≤ distance := by omega
    have hpks : pks = (selectByPeakDistance
        (((localMaxima x).filter fun q => decide (h ≤ x.getD q 0)).map
          fun (q : ℕ) => (q : ℤ))
        (((localMaxima x).filter fun q => decide (h ≤ x.getD q 0)).map
          fun (q : ℕ) => x.getD q 0)
        distance).map Int.toNat := by
      simp only [Except.ok.injEq] at hok
      exact hok.symm
    have hpf : p ∈ (localMaxima x).filter fun q => decide (h ≤ x.getD q 0) :=
      List.mem_filter.mpr ⟨hp, by simpa using hh⟩
    obtain ⟨m, hmlt, hpm⟩ := List.getElem_of_mem hpf
    have hmlt' : m < (((localMaxima x).filter fun q => decide (h ≤ x.getD q 0)).map
        fun (q : ℕ) => (q : ℤ)).length := by
      rw [List.length_map]; exact hmlt
    obtain ⟨j, hjlt, hjmem, hjc, hjp⟩ := sbpd_complete
      (((localMaxima x).filter fun q => decide (h ≤ x.getD q 0)).map
        fun (q : ℕ) => (q : ℤ))
      (((localMaxima x).filter fun q => decide (h ≤ x.getD q 0)).map
        fun (q : ℕ) => x.getD q 0)
      distance hd (by rw [List.length_map, List.length_map]) m hmlt'
    have hjlt' : j < ((localMaxima x).filter fun q => decide (h ≤ x.getD q 0)).length := by
      rw [List.length_map] at hjlt; exact hjlt
    have hgm : (((localMaxima x).filter fun q => decide (h ≤ x.getD q 0)).map
        fun (q : ℕ) => (q : ℤ)).getD m 0 = (p : ℤ) := by
      rw [List.getD_eq_getElem _ _ hmlt', List.getElem_map]
      exact_mod_cast hpm
    have hgj : (((localMaxima x).filter fun q => decide (h ≤ x.getD q 0)).map
        fun (q : ℕ) => (q : ℤ)).getD j 0
        = ((((localMaxima x).filter fun q => decide (h ≤ x.getD q 0)).getD j 0 : ℕ) : ℤ) := by
      rw [List.getD_eq_getElem _ _ hjlt, List.getElem_map,
        List.getD_eq_getElem _ _ hjlt']
    have hpm' : (((localMaxima x).filter fun q => decide (h ≤ x.getD q 0)).map
        fun (q : ℕ) => x.getD q 0).getD m 0 = x.getD p 0 := by
      rw [List.getD_eq_getElem _ _ (by rw [List.length_map]; exact hmlt),
        List.getElem_map, hpm]
    have hpj : (((localMaxima x).filter fun q => decide (h ≤ x.getD q 0)).map
        fun (q : ℕ) => x.getD q 0).getD j 0
        = x.getD (((localMaxima x).filter fun q => decide (h ≤ x.getD q 0)).getD j 0) 0 := by
      rw [List.getD_eq_getElem _ _ (by rw [List.length_map]; exact hjlt'),
        List.getElem_map, List.getD_eq_getElem _ _ hjlt']
    refine ⟨((localMaxima x).filter fun q => decide (h ≤ x.getD q 0)).getD j 0,
      ?_, ?_, ?_⟩
    · rw [hpks]
      refine List.mem_map.mpr
        ⟨((((localMaxima x).filter fun q => decide (h ≤ x.getD q 0)).getD j 0 : ℕ) : ℤ),
          ?_, Int.toNat_ofNat _⟩
      rw [← hgj]
      exact hjmem
    · rw [hgj, hgm] at hjc
      exact hjc
    · rw [hpm', hpj] at hjp
      exact hjp

theorem ccn_length (e t : List ℚ) (ht : t ≠ []) :
    (((npCorrelateFull e t).drop (t.length - 1)).map (· / normSq t)).length
      = e.length := by
  rw [List.length_map, List.length_drop]
  unfold npCorrelateFull
  rw [List.length_map, List.length_range]
  have h1 : 1 ≤ t.length := List.length_pos.mpr ht
  omega

theorem ccn_getD (e t : List ℚ) (ht : t ≠ []) (i : ℕ) (hi : i < e.length) :
    (((npCorrelateFull e t).drop (t.length - 1)).map (· / normSq t)).getD i 0
      = specSlidingDot e t i / normSq t := by
  have h1 : 1 ≤ t.length := List.length_pos.mpr ht
  rw [getD_map_div]
  congr 1
  rw [List.getD_eq_getElem?_getD, List.getElem?_drop, ← List.getD_eq_getElem?_getD]
  unfold npCorrelateFull
  rw [mapRange_getD _ _ _ _ (by omega)]
  unfold specSlidingDot
  refine congrArg List.sum (List.map_congr_left fun k hk => ?_)
  have hidx : t.length - 1 + i + k + 1 - t.length = i + k := by omega
  rw [hidx]
  have hcond : (t.length ≤ t.length - 1 + i + k + 1 ∧ i + k < e.length)
      ↔ (i + k < e.length) := by omega
  rw [if_congr hcond rfl rfl]

/-- Concrete evaluation of one `detect_qrs` run: sample rate 4, threshold
factor 1/2, enhanced signal `[0,0,0,0,0,0,1]` and template `[4,8,2,1]`. -/
theorem detect_qrs_overrun_run :
    QRSdetector.detect_qrs ⟨⟨0, [], [], 4⟩, 1, 1/2, 4⟩ [0, 0, 0, 0, 0, 0, 1]
      [4, 8, 2, 1] = .ok ([7], [0, 0, 0, 1/85, 2/85, 8/85, 4/85]) := by
  have hcorr : npCorrelateFull [0, 0, 0, 0, 0, 0, 1] [4, 8, 2, 1]
      = [0, 0, 0, 0, 0, 0, 1, 2, 8, 4] := by
    norm_num [npCorrelateFull, List.range_succ, List.getD_eq_getElem?_getD]
  have hA3 : lmAhead [0, 0, 0, (1:ℚ)/85, 2/85, 8/85, 4/85] (1/85) 6 4 = 4 := by
    rw [lmAhead]; norm_num [List.getD]
  have hA4 : lmAhead [0, 0, 0, (1:ℚ)/85, 2/85, 8/85, 4/85] (2/85) 6 5 = 5 := by
    rw [lmAhead]; norm_num [List.getD]
  have hA5 : lmAhead [0, 0, 0, (1:ℚ)/85, 2/85, 8/85, 4/85] (8/85) 6 6 = 6 := by
    rw [lmAhead]; norm_num [List.getD]
  have hG7 : lmGo [0, 0, 0, (1:ℚ)/85, 2/85, 8/85, 4/85] 6 7 = [] := by
    rw [lmGo]; norm_num
  have hG5 : lmGo [0, 0, 0, (1:ℚ)/85, 2/85, 8/85, 4/85] 6 5 = [5] := by
    rw [lmGo]; norm_num [List.getD, hA5, hG7]
  have hG4 : lmGo [0, 0, 0, (1:ℚ)/85, 2/85, 8/85, 4/85] 6 4 = [5] := by
    rw [lmGo]; norm_num [List.getD, hA4, hG5]
  have hG3 : lmGo [0, 0, 0, (1:ℚ)/85, 2/85, 8/85, 4/85] 6 3 = [5] := by
    rw [lmGo]; norm_num [List.getD, hA3, hG4]
  have hG2 : lmGo [0, 0, 0, (1:ℚ)/85, 2/85, 8/85, 4/85] 6 2 = [5] := by
    rw [lmGo]; norm_num [List.getD, hG3]
  have hG1 : lmGo [0, 0, 0, (1:ℚ)/85, 2/85, 8/85, 4/85] 6 1 = [5] := by
    rw [lmGo]; norm_num [List.getD, hG2]
  have hlm : localMaxima [0, 0, 0, (1:ℚ)/85, 2/85, 8/85, 4/85] = [5] := by
    rw [localMaxima]; norm_num [hG1]
  have hsel : selectByPeakDistance [5] [(8:ℚ)/85] 1 = [5] := by
    norm_num [selectByPeakDistance, priorityOrder, insertDesc, sbpdGo, clearNear,
      List.range_succ, List.getD_eq_getElem?_getD]
  have hfp : scipyFindPeaks [0, 0, 0, (1:ℚ)/85, 2/85, 8/85, 4/85] (4/85) 1
      = .ok [5] := by
    norm_num [scipyFindPeaks, hlm, List.filter, List.getD, hsel,
      show Int.toNat 5 = 5 from rfl]
  have hns : normSq [(4:ℚ), 8, 2, 1] = 85 := by norm_num [normSq, dotQ]
  have hmx : npMax [0, 0, 0, (1:ℚ)/85, 2/85, 8/85, 4/85] = 8/85 := by
    norm_num [npMax, List.foldl]
  norm_num [QRSdetector.detect_qrs, hcorr, hns, hmx, hfp]

/-- C3 counterexample: at `sr = 4` (distance `sr // 4 = 1`), signal
`[0,0,0,0,0,0,1]` and template `[4,8,2,1]`, `detect_qrs` finds the correlation
peak at lag 5 and shifts it by `len(template) // 2 = 2`, returning peak index
`7 = len(enhanced)`: the returned peak is not a valid sample index into the
enhanced signal. -/
theorem c3_counterexample :
    QRSdetector.detect_qrs ⟨⟨0, [], [], 4⟩, 1, 1/2, 4⟩ [0, 0, 0, 0, 0, 0, 1]
      [4, 8, 2, 1] = .ok ([7], [0, 0, 0, 1/85, 2/85, 8/85, 4/85]) ∧
    ([(0:ℚ), 0, 0, 0, 0, 0, 1].length ≤ 7) :=
  ⟨detect_qrs_overrun_run, by norm_num⟩

/-- C3 (amended): every PeakSet returned by `detect_qrs` is strictly
increasing with consecutive peaks at least `sr // 4` samples apart, and every
returned peak `q` satisfies `⌊len(template)/2⌋ ≤ q` and
`q - ⌊len(template)/2⌋ < len(enhanced)`: it is a valid index into the
correlation trace, but after the forward shift it may exceed
`len(enhanced) - 1` by up to `⌊len(template)/2⌋`. -/
theorem c3_peakset_amended (d : QRSdetector) (e t : List ℚ) (pks : List ℕ)
    (ccn : List ℚ) (hok : d.detect_qrs e t = .ok (pks, ccn)) :
    List.Pairwise (fun a b => a < b ∧ a + d.sr / 4 ≤ b) pks ∧
    ∀ q ∈ pks, t.length / 2 ≤ q ∧ q < e.length + t.length / 2 := by
  revert hok
  unfold QRSdetector.detect_qrs
  by_cases hempty : e.isEmpty ∨ t.isEmpty
  · rw [if_pos hempty]
    intro hok
    exact absurd hok (by simp)
  · rw [if_neg hempty]
    dsimp only
    intro hok
    have he' : e ≠ [] := by
      intro hc
      subst hc
      simp at hempty
    have ht' : t ≠ [] := by
      intro hc
      subst hc
      simp at hempty
    split at hok
    · exact absurd hok (by simp)
    · rename_i found heq
      simp only [Except.ok.injEq, Prod.mk.injEq] at hok
      obtain ⟨hpks, hccn⟩ := hok
      obtain ⟨hpw, hmem⟩ := scipyFindPeaks_sound _ _ _ _ heq
      constructor
      · rw [← hpks, List.pairwise_map]
        refine List.Pairwise.imp ?_ hpw
        intro a b hab
        omega
      · intro q hq
        rw [← hpks] at hq
        obtain ⟨p, hpfound, rfl⟩ := List.mem_map.mp hq
        have hloc := (hmem p hpfound).1
        have hbound := (localMaxima_sound _).1 p hloc
        have hcl := ccn_length e t ht'
        rw [hcl] at hbound
        omega

/-- C3 witness: the amended theorem applied to the counterexample run, whose
single returned peak `7` satisfies `2 ≤ 7 < 7 + 2`. -/
theorem c3_peakset_amended_witness :
    QRSdetector.detect_qrs ⟨⟨0, [], [], 4⟩, 1, 1/2, 4⟩ [0, 0, 0, 0, 0, 0, 1]
      [4, 8, 2, 1] = .ok ([7], [0, 0, 0, 1/85, 2/85, 8/85, 4/85]) ∧
    ∀ q ∈ [7], [(4:ℚ), 8, 2, 1].length / 2 ≤ q ∧
      q < [(0:ℚ), 0, 0, 0, 0, 0, 1].length + [(4:ℚ), 8, 2, 1].length / 2 := by
  have hok := detect_qrs_overrun_run
  exact ⟨hok, (c3_peakset_amended ⟨⟨0, [], [], 4⟩, 1, 1/2, 4⟩
    [0, 0, 0, 0, 0, 0, 1] [4, 8, 2, 1] [7] [0, 0, 0, 1/85, 2/85, 8/85, 4/85] hok).2⟩

/-- C8: on nonempty inputs (and a sample rate making the refractory distance
valid), `detect_qrs` returns normally — a zero-peak result included, never an
error — with the normalized correlation trace equal, sample for sample, to the
sliding dot product of the template with the signal divided by the template's
squared L2 norm (the full cross-correlation with its first `len(template) - 1`
lag values discarded). The returned indices are exactly those selected by the
height-plus-distance peak picking, shifted forward by `len(template) // 2`:
every returned index is such a shift of a local maximum of the trace meeting
the `threshold_factor × global maximum` height bar (soundness); consecutive
returned indices are at least `sr // 4` samples apart (separation); and no
qualifying local maximum is omitted without cause — each one lies strictly
within `sr // 4` samples of a returned unshifted peak whose trace value is at
least as large (completeness of the greedy refractory selection). -/
theorem c8_detect_pipeline (d : QRSdetector) (e t : List ℚ)
    (he : e ≠ []) (ht : t ≠ []) (hsr : 4 ≤ d.sr) :
    ∃ pks ccn, d.detect_qrs e t = .ok (pks, ccn) ∧
      ccn.length = e.length ∧
      (∀ i, i < e.length → ccn.getD i 0 = specSlidingDot e t i / normSq t) ∧
      (∀ q ∈ pks, ∃ p, q = p + t.length / 2 ∧ p ∈ localMaxima ccn ∧
        d.threshold_factor * npMax ccn ≤ ccn.getD p 0) ∧
      pks.Pairwise (fun a b => a < b ∧ a + d.sr / 4 ≤ b) ∧
      (∀ p ∈ localMaxima ccn, d.threshold_factor * npMax ccn ≤ ccn.getD p 0 →
        ∃ s, s + t.length / 2 ∈ pks ∧ ((s : ℤ) - (p : ℤ)).natAbs < d.sr / 4 ∧
          ccn.getD p 0 ≤ ccn.getD s 0) := by
  have hd1 : ¬(d.sr / 4 < 1) := by omega
  have hne : ¬(e.isEmpty ∨ t.isEmpty) := by
    simp [List.isEmpty_iff, he, ht]
  obtain ⟨found, hfp⟩ : ∃ found,
      scipyFindPeaks (((npCorrelateFull e t).drop (t.length - 1)).map (· / normSq t))
        (d.threshold_factor *
          npMax (((npCorrelateFull e t).drop (t.length - 1)).map (· / normSq t)))
        (d.sr / 4) = .ok found := by
    unfold scipyFindPeaks
    rw [if_neg hd1]
    exact ⟨_, rfl⟩
  have hsound := scipyFindPeaks_sound _ _ _ _ hfp
  refine ⟨found.map (· + t.length / 2),
    ((npCorrelateFull e t).drop (t.length - 1)).map (· / normSq t),
    ?_, ?_, ?_, ?_, ?_, ?_⟩
  · unfold QRSdetector.detect_qrs
    rw [if_neg hne]
    dsimp only
    rw [hfp]
  · exact ccn_length e t ht
  · intro i hi
    exact ccn_getD e t ht i hi
  · intro q hq
    obtain ⟨p, hpf, rfl⟩ := List.mem_map.mp hq
    exact ⟨p, rfl, (hsound.2 p hpf).1, (hsound.2 p hpf).2⟩
  · rw [List.pairwise_map]
    refine List.Pairwise.imp ?_ hsound.1
    intro a b hab
    exact ⟨by omega, by omega⟩
  · intro p hp hh
    obtain ⟨s, hsf, hsc, hsd⟩ := scipyFindPeaks_complete _ _ _ _ hfp p hp hh
    exact ⟨s, List.mem_map.mpr ⟨s, hsf, rfl⟩, hsc, hsd⟩

/-- C8 witness: the theorem applied to a 3-sample signal and the unit
template at `sr = 4`. -/
theorem c8_detect_pipeline_witness :
    (([(1:ℚ), 2, 1] : List ℚ) ≠ [] ∧ ([(1:ℚ)] : List ℚ) ≠ [] ∧
      4 ≤ (⟨⟨0, [], [], 4⟩, 1, 1/2, 4⟩ : QRSdetector).sr) ∧
    ∃ pks ccn,
      (⟨⟨0, [], [], 4⟩, 1, 1/2, 4⟩ : QRSdetector).detect_qrs [1, 2, 1] [1]
        = .ok (pks, ccn) ∧
      ccn.length = ([(1:ℚ), 2, 1] : List ℚ).length := by
  have he : ([(1:ℚ), 2, 1] : List ℚ) ≠ [] := by simp
  have ht : ([(1:ℚ)] : List ℚ) ≠ [] := by simp
  have hsr : 4 ≤ (⟨⟨0, [], [], 4⟩, 1, 1/2, 4⟩ : QRSdetector).sr := by norm_num
  obtain ⟨pks, ccn, hok, hlen, _, _, _, _⟩ :=
    c8_detect_pipeline (⟨⟨0, [], [], 4⟩, 1, 1/2, 4⟩ : QRSdetector) [1, 2, 1] [1]
      he ht hsr
  exact ⟨⟨he, ht, hsr⟩, pks, ccn, hok, hlen⟩
